import Mathlib

/-!
# Verification of the `Emitter` class (src/src/emitter.ts)

A shallow embedding of the typed event emitter.  The implementation is a
JavaScript class whose single field `#events` is a plain object mapping
property keys (strings or symbols) to *mutable arrays* of functions.  Array
aliasing is semantically relevant (`listeners` returns the live array,
`emit` iterates it while listeners may mutate it), so the embedding uses an
explicit heap of arrays addressed by references, and listener functions are
identified by numeric ids (reference identity) mapped to behaviours.

Listener behaviour is modelled by a small command language: a listener body
may register/deregister listeners, re-emit events, throw, or observe
`listenerCount` (anything a JavaScript listener closure could do with the
emitter instance).  `emit` is interpreted by a fuel-indexed, structurally
recursive function so that concrete runs are decidable.
-/

namespace EmitterModel

/-- Property keys of the backing `#events` object: text strings or symbols
(symbols identified by a creation id, compared by identity). -/
inductive JSKey where
  | str (s : String)
  | sym (id : Nat)
deriving DecidableEq, Repr

/-- JavaScript truthiness of an event-key value, as tested by
`if (event)` in `removeAllListeners`: the empty string is falsy, every
other string and every symbol is truthy. -/
def JSKey.truthy : JSKey → Bool
  | .str s => s != ""
  | .sym _ => true

/-- Commands a listener body may perform on the emitter while it runs.
`snapC` records the current `listenerCount` of a key into an observation
log (a listener closure reading `emitter.listenerCount(k)`). -/
inductive Cmd where
  | onC (k : JSKey) (f : Nat)
  | onceC (k : JSKey) (f : Nat)
  | offC (k : JSKey) (f : Nat)
  | emitC (k : JSKey) (args : List Nat)
  | throwC (n : Nat)
  | snapC (k : JSKey)
deriving DecidableEq, Repr

/-- A function value: either a plain listener with a body of commands, or a
`Proxy` produced by `once`, wrapping a target function for key `k`.  The
proxy's `apply` trap runs `target(...args)` and then `this.off(event, proxy)`,
in that order (src/src/emitter.ts lines 57-62). -/
inductive FnDef where
  | plain (body : List Cmd)
  | proxy (target : Nat) (k : JSKey)
deriving DecidableEq, Repr

/-- State of an `Emitter` instance together with the surrounding JS heap:
`eventsObj` is the `#events` object (insertion-ordered association of keys
to array references), `heap` stores array contents by reference (newest
binding first), `fns` maps function ids to behaviours.  `trace` logs every
function invocation with its arguments; `obs` logs `snapC` observations. -/
structure St where
  eventsObj : List (JSKey × Nat)
  heap : List (Nat × List Nat)
  nextRef : Nat
  fns : List (Nat × FnDef)
  nextFn : Nat
  trace : List (Nat × List Nat)
  obs : List Nat
deriving DecidableEq, Repr

/-- First-match association lookup. -/
def assocFind {α β : Type} [DecidableEq α] : List (α × β) → α → Option β
  | [], _ => none
  | (a, b) :: rest, x => if a = x then some b else assocFind rest x

/-- Contents of the array at reference `r` (unallocated references read as
empty; well-formed states never reach them). -/
def heapGet (st : St) (r : Nat) : List Nat :=
  (assocFind st.heap r).getD []

/-- In-place update of the array at reference `r` (shadowing binding). -/
def heapSet (st : St) (r : Nat) (v : List Nat) : St :=
  { st with heap := (r, v) :: st.heap }

/-- Allocate a fresh empty array, returning its reference. -/
def allocArr (st : St) : Nat × St :=
  (st.nextRef,
    { st with heap := (st.nextRef, []) :: st.heap, nextRef := st.nextRef + 1 })

/-- Store `k ↦ r` in the `#events` object: an existing key keeps its
position (property update), a new key is appended (JS insertion order). -/
def storeKeyList : List (JSKey × Nat) → JSKey → Nat → List (JSKey × Nat)
  | [], k, r => [(k, r)]
  | (k', r') :: rest, k, r =>
      if k' = k then (k, r) :: rest else (k', r') :: storeKeyList rest k r

/-- `listeners(event)`: `this.#events[event] ?? []` — the live array
reference when the key is present, otherwise a *fresh* empty array
(allocated but not stored in the object). -/
def listenersOp (st : St) (k : JSKey) : Nat × St :=
  match assocFind st.eventsObj k with
  | some r => (r, st)
  | none => allocArr st

/-- `on(event, listener)`: `const l = this.listeners(event); l.push(x);
this.#events[event] = l`. -/
def onOp (st : St) (k : JSKey) (f : Nat) : St :=
  let p := listenersOp st k
  let st₂ := heapSet p.2 p.1 (heapGet p.2 p.1 ++ [f])
  { st₂ with eventsObj := storeKeyList st₂.eventsObj k p.1 }

/-- `once(event, listener)`: allocates a fresh `Proxy` around `listener`
(a new function identity), registers it via `on`, and returns it. -/
def onceOp (st : St) (k : JSKey) (f : Nat) : Nat × St :=
  let p := st.nextFn
  let st₁ := { st with fns := (p, FnDef.proxy f k) :: st.fns, nextFn := st.nextFn + 1 }
  (p, onOp st₁ k p)

/-- `off(event, listener)`: when the key is present,
`this.#events[event] = this.#events[event].filter((v) => v !== listener)` —
a *new* array is allocated, the old one is left untouched. -/
def offOp (st : St) (k : JSKey) (f : Nat) : St :=
  match assocFind st.eventsObj k with
  | none => st
  | some r =>
      let p := allocArr st
      let st₂ := heapSet p.2 p.1 ((heapGet st r).filter (fun g => g ≠ f))
      { st₂ with eventsObj := storeKeyList st₂.eventsObj k p.1 }

/-- JS `delete obj[key]`: the key's binding is removed, the other keys
keep their relative order. -/
def deleteKey : List (JSKey × Nat) → JSKey → List (JSKey × Nat)
  | [], _ => []
  | (k', r) :: rest, k =>
      if k' = k then deleteKey rest k else (k', r) :: deleteKey rest k

/-- `removeAllListeners(event?)`: `if (event) delete this.#events[event]
else this.#events = {}` — note the truthiness test on the key. -/
def removeAllOp (st : St) (k : Option JSKey) : St :=
  match k with
  | some key =>
      if key.truthy then
        { st with eventsObj := deleteKey st.eventsObj key }
      else { st with eventsObj := [] }
  | none => { st with eventsObj := [] }

/-- `listenerCount(event)`: `this.#events[event]?.length ?? 0`. -/
def listenerCountOp (st : St) (k : JSKey) : Nat :=
  match assocFind st.eventsObj k with
  | some r => (heapGet st r).length
  | none => 0

/-- The current listener array for a key, as a pure list (contents of the
stored array, or empty when the key is absent). -/
def listsOf (st : St) (k : JSKey) : List Nat :=
  match assocFind st.eventsObj k with
  | some r => heapGet st r
  | none => []

/-- Whether a string is a canonical array-index property name
(`"0"`, `"1"`, …, no leading zeros, value below 2^32 - 1): such keys are
iterated first, in ascending numeric order, by `Reflect.ownKeys`.
Implemented on the character list so it evaluates by kernel reduction. -/
def isArrayIndex (s : String) : Option Nat :=
  match s.data with
  | [] => none
  | c :: cs =>
      if (c :: cs).all Char.isDigit then
        if c = '0' ∧ cs ≠ [] then none
        else
          let n := (c :: cs).foldl (fun a ch => a * 10 + (ch.toNat - 48)) 0
          if n < 4294967295 then some n else none
      else none

/-- Numeric value used to order array-index keys. -/
def idxVal : JSKey → Nat
  | .str s => (isArrayIndex s).getD 0
  | .sym _ => 0

/-- Is this key an array-index key? -/
def isIdxKey : JSKey → Bool
  | .str s => (isArrayIndex s).isSome
  | .sym _ => false

/-- Is this key a non-index string key? -/
def isPlainStrKey : JSKey → Bool
  | .str s => (isArrayIndex s).isNone
  | .sym _ => false

/-- Is this key a symbol key? -/
def isSymKey : JSKey → Bool
  | .str _ => false
  | .sym _ => true

/-- Insert into a list sorted by `idxVal` (ascending). -/
def insSorted (x : JSKey) : List JSKey → List JSKey
  | [] => [x]
  | y :: ys => if idxVal x ≤ idxVal y then x :: y :: ys else y :: insSorted x ys

/-- Sort keys by `idxVal` (ascending), used for array-index keys. -/
def sortIdx : List JSKey → List JSKey
  | [] => []
  | x :: xs => insSorted x (sortIdx xs)

/-- `Reflect.ownKeys` ordering on a plain object's keys: array-index keys
first in ascending numeric order, then the remaining string keys in
insertion order, then symbol keys in insertion order. -/
def ownKeys (ks : List JSKey) : List JSKey :=
  sortIdx (ks.filter isIdxKey) ++ ks.filter isPlainStrKey ++ ks.filter isSymKey

/-- `eventNames()`: `Reflect.ownKeys(this.#events)`. -/
def eventNamesOp (st : St) : List JSKey :=
  ownKeys (st.eventsObj.map Prod.fst)

/-- The four kinds of pending computation of the interpreter:
a whole `emit`, the `for` loop of `emit` at index `i` over the array at
reference `r`, a function invocation, and a listener body. -/
inductive Call where
  | emitCall (k : JSKey) (args : List Nat)
  | loopCall (r : Nat) (args : List Nat) (i : Nat)
  | fnCall (f : Nat) (args : List Nat)
  | cmdsCall (cs : List Cmd)
deriving DecidableEq, Repr

/-- Abnormal outcomes: a listener threw the exception `n`, or the fuel ran
out (the JS program diverges past this depth). -/
inductive JSErr where
  | thrown (n : Nat)
  | fuelOut
deriving DecidableEq, Repr

/-- Sequencing of interpreter results: on an exception the state is kept
and the continuation is skipped (JS exceptions do not roll back state). -/
def andThen (p : St × Option JSErr) (f : St → St × Option JSErr) :
    St × Option JSErr :=
  match p with
  | (st, some e) => (st, some e)
  | (st, none) => f st

/-- The state with an invocation `(f, args)` appended to the log. -/
def pushTrace (st : St) (f : Nat) (args : List Nat) : St :=
  { st with trace := st.trace ++ [(f, args)] }

/-- Fuel-indexed interpreter.  A JS exception does not roll back the
emitter's state, so the final state is returned alongside the outcome.
`loopCall` re-reads the live array each iteration (`i < listeners.length`
and `listeners[i]` are evaluated on the shared array object); `fnCall`
first logs the invocation, then runs the body — for a proxy: the target
first, then `off(event, proxy)`, mirroring the `apply` trap. -/
def run : Nat → St → Call → St × Option JSErr
  | 0, st, _ => (st, some .fuelOut)
  | Nat.succ fuel, st, c =>
    match c with
    | .emitCall k args =>
        let p := listenersOp st k
        run fuel p.2 (.loopCall p.1 args 0)
    | .loopCall r args i =>
        let arr := heapGet st r
        if h : i < arr.length then
          andThen (run fuel st (.fnCall (arr.get ⟨i, h⟩) args)) fun st' =>
            run fuel st' (.loopCall r args (i + 1))
        else (st, none)
    | .fnCall f args =>
        let st₁ := pushTrace st f args
        match assocFind st₁.fns f with
        | some (FnDef.plain body) => run fuel st₁ (.cmdsCall body)
        | some (FnDef.proxy tgt k) =>
            andThen (run fuel st₁ (.fnCall tgt args)) fun st₂ =>
              (offOp st₂ k f, none)
        | none => (st₁, none)
    | .cmdsCall [] => (st, none)
    | .cmdsCall (cmd :: cs) =>
        match cmd with
        | .onC k f => run fuel (onOp st k f) (.cmdsCall cs)
        | .onceC k f => run fuel (onceOp st k f).2 (.cmdsCall cs)
        | .offC k f => run fuel (offOp st k f) (.cmdsCall cs)
        | .snapC k =>
            run fuel { st with obs := st.obs ++ [listenerCountOp st k] } (.cmdsCall cs)
        | .throwC n => (st, some (.thrown n))
        | .emitC k args =>
            andThen (run fuel st (.emitCall k args)) fun st' =>
              run fuel st' (.cmdsCall cs)

/-- `emit(event, ...args)`: iterates the array obtained from
`this.listeners(event)` and finally returns `Boolean(listeners.length)` —
the length of that same (live) array *after* the loop.  A listener
exception propagates instead of a boolean result. -/
def emitOp (fuel : Nat) (st : St) (k : JSKey) (args : List Nat) :
    Except JSErr Bool × St :=
  let p := listenersOp st k
  match run fuel p.2 (.loopCall p.1 args 0) with
  | (st', some e) => (.error e, st')
  | (st', none) => (.ok ((heapGet st' p.1).length != 0), st')

/-- The empty emitter (fresh instance) together with a function table:
states used in concrete scenarios are built by the operations above from
this one. -/
def initSt (fns : List (Nat × FnDef)) (nextFn : Nat) : St :=
  { eventsObj := [], heap := [], nextRef := 0, fns := fns, nextFn := nextFn,
    trace := [], obs := [] }

/-- The boolean result of an `emit`, when it returned normally. -/
def resOf (x : Except JSErr Bool × St) : Option Bool :=
  match x.1 with
  | .ok b => some b
  | .error _ => none

/-- The exception of an `emit`, when it threw. -/
def errOf (x : Except JSErr Bool × St) : Option JSErr :=
  match x.1 with
  | .ok _ => none
  | .error e => some e

/-- Well-formedness of a state: every array reference bound in the
`#events` object or the heap has been allocated, distinct keys are bound
to distinct arrays, function ids in the table have been allocated, and the
object's keys are duplicate-free. -/
structure WfSt (st : St) : Prop where
  evLt : ∀ k r, assocFind st.eventsObj k = some r → r < st.nextRef
  evInj : ∀ k₁ k₂ r, assocFind st.eventsObj k₁ = some r →
      assocFind st.eventsObj k₂ = some r → k₁ = k₂
  heapLt : ∀ p ∈ st.heap, p.1 < st.nextRef
  fnLt : ∀ p ∈ st.fns, p.1 < st.nextFn
  keysNd : (st.eventsObj.map Prod.fst).Nodup

/-- State extension: how every operation and every interpreter step grows
a state.  Allocated arrays only ever get entries appended (the only
in-place array mutation in the source is `push` in `on`; `off` replaces
the array wholesale), existing function bindings survive, and the
invocation log grows. -/
structure Ext (st st' : St) : Prop where
  refLe : st.nextRef ≤ st'.nextRef
  fnLe : st.nextFn ≤ st'.nextFn
  heapExt : ∀ r, r < st.nextRef → ∃ t, heapGet st' r = heapGet st r ++ t
  fnsPres : ∀ f d, assocFind st.fns f = some d → assocFind st'.fns f = some d
  traceExt : ∃ t, st'.trace = st.trace ++ t

/-- Scenario: a one-shot listener (function id 0) that reads
`listenerCount` of its own event while it runs; `once` wraps it in the
proxy with function id 1. -/
def onceObsSt : St :=
  (onceOp (initSt [(0, FnDef.plain [Cmd.snapC (JSKey.sym 0)])] 1) (JSKey.sym 0) 0).2

/-- Scenario: a one-shot listener (function id 0) that re-emits its own
event during its own execution. -/
def onceReemitSt : St :=
  (onceOp (initSt [(0, FnDef.plain [Cmd.emitC (JSKey.sym 0) []])] 1) (JSKey.sym 0) 0).2

/-- Witness state for the amended one-shot claim: a passive listener 0
wrapped by `once` into the proxy with id 1, on event sym 0. -/
def onceWitSt : St :=
  (onceOp (initSt [(0, FnDef.plain [])] 1) (JSKey.sym 0) 0).2

/-- State reached after the wrapper invocation logs `(1, [9])` and the
original listener's invocation logs `(0, [9])`. -/
def onceWitSt2 : St :=
  pushTrace (pushTrace onceWitSt 1 [9]) 0 [9]

/-- Scenario: listener 0 registers listener 1 for the same event while
that event is being emitted. -/
def addDuringEmitSt : St :=
  onOp (initSt [(0, FnDef.plain [Cmd.onC (JSKey.sym 0) 1]), (1, FnDef.plain [])] 2)
    (JSKey.sym 0) 0

/-- Scenario: passive listener 0 and listener 1, which removes the
already-run listener 0 while the event is being emitted. -/
def removeDuringEmitSt : St :=
  onOp (onOp (initSt [(0, FnDef.plain []),
    (1, FnDef.plain [Cmd.offC (JSKey.sym 0) 0])] 2) (JSKey.sym 0) 0) (JSKey.sym 0) 1

/-- Scenario: one listener on the empty-string key, one on key "a". -/
def emptyStrKeySt : St :=
  onOp (onOp (initSt [(0, FnDef.plain []), (1, FnDef.plain [])] 2)
    (JSKey.str "") 0) (JSKey.str "a") 1

/-- Scenario: a symbol key registered before a text key. -/
def symThenStrSt : St :=
  onOp (onOp (initSt [(0, FnDef.plain []), (1, FnDef.plain [])] 2)
    (JSKey.sym 7) 0) (JSKey.str "a") 1

/-- Scenario: a single passive listener on a symbol key. -/
def oneListenerSt : St :=
  onOp (initSt [(0, FnDef.plain []), (1, FnDef.plain [])] 2) (JSKey.sym 3) 0

/-- Scenario with array-index-like text keys: keys "10", sym 7, "a", "2"
registered in that order; `Reflect.ownKeys` yields "2", "10" (ascending
numeric order), then "a", then sym 7. -/
def numKeySt : St :=
  onOp (onOp (onOp (onOp (initSt [(0, FnDef.plain []), (1, FnDef.plain []),
    (2, FnDef.plain []), (3, FnDef.plain [])] 4)
    (JSKey.str "10") 0) (JSKey.sym 7) 1) (JSKey.str "a") 2) (JSKey.str "2") 3

/-- Scenario: passive listeners registered as 0, 1, 0 on one key (the same
function added twice). -/
def dupListenerSt : St :=
  onOp (onOp (onOp (initSt [(0, FnDef.plain []), (1, FnDef.plain [])] 2)
    (JSKey.sym 0) 0) (JSKey.sym 0) 1) (JSKey.sym 0) 0

/-- Scenario: a passive listener, then one that throws 42, then another
passive listener, all on one key. -/
def throwMidSt : St :=
  onOp (onOp (onOp (initSt [(0, FnDef.plain []),
    (1, FnDef.plain [Cmd.throwC 42]), (2, FnDef.plain [])] 3)
    (JSKey.sym 0) 0) (JSKey.sym 0) 1) (JSKey.sym 0) 2

theorem assocFind_mem {α β : Type} [DecidableEq α] :
    ∀ {l : List (α × β)} {x : α} {b : β}, assocFind l x = some b → (x, b) ∈ l
  | [], _, _, h => by simp [assocFind] at h
  | (a, c) :: rest, x, b, h => by
      by_cases hax : a = x
      · subst hax
        simp [assocFind] at h
        subst h
        exact List.mem_cons_self _ _
      · simp [assocFind, hax] at h
        exact List.mem_cons_of_mem _ (assocFind_mem h)

theorem key_mem_of_assocFind {l : List (JSKey × Nat)} {x : JSKey} {r : Nat}
    (h : assocFind l x = some r) : x ∈ l.map Prod.fst :=
  List.mem_map_of_mem Prod.fst (assocFind_mem h)

theorem assocFind_storeKeyList {l : List (JSKey × Nat)} {k x : JSKey} {r : Nat} :
    assocFind (storeKeyList l k r) x = if k = x then some r else assocFind l x := by
  induction l with
  | nil => by_cases h : k = x <;> simp [storeKeyList, assocFind, h]
  | cons p rest ih =>
      obtain ⟨a, c⟩ := p
      by_cases hak : a = k
      · subst hak
        by_cases hax : a = x <;> simp [storeKeyList, assocFind, hax]
      · have hka : ¬ k = a := fun h => hak h.symm
        by_cases hax : a = x
        · subst hax
          simp [storeKeyList, hak, assocFind, hka]
        · simp [storeKeyList, hak, assocFind, hax, ih]

theorem map_fst_storeKeyList {l : List (JSKey × Nat)} {k : JSKey} {r : Nat} :
    (storeKeyList l k r).map Prod.fst =
      if k ∈ l.map Prod.fst then l.map Prod.fst else l.map Prod.fst ++ [k] := by
  induction l with
  | nil => simp [storeKeyList]
  | cons p rest ih =>
      obtain ⟨a, c⟩ := p
      by_cases hak : a = k
      · subst hak
        simp [storeKeyList]
      · have hka : ¬ k = a := fun h => hak h.symm
        by_cases hmem : k ∈ rest.map Prod.fst <;>
          simp [storeKeyList, hak, hka, ih, hmem]

theorem assocFind_deleteKey {l : List (JSKey × Nat)} {key x : JSKey} :
    assocFind (deleteKey l key) x = if x = key then none else assocFind l x := by
  induction l with
  | nil => by_cases h : x = key <;> simp [assocFind, deleteKey, h]
  | cons p rest ih =>
      obtain ⟨a, c⟩ := p
      by_cases hak : a = key
      · subst hak
        by_cases hax : x = a
        · subst hax
          simp [deleteKey, assocFind, ih]
        · have hxa : ¬ a = x := fun h => hax h.symm
          simp [deleteKey, assocFind, hax, hxa, ih]
      · by_cases hax : a = x
        · subst hax
          have hxk : ¬ a = key := hak
          simp [deleteKey, assocFind, hxk]
        · simp [deleteKey, assocFind, hak, hax, ih]

theorem deleteKey_sublist (l : List (JSKey × Nat)) (key : JSKey) :
    List.Sublist (deleteKey l key) l := by
  induction l with
  | nil => simp [deleteKey]
  | cons p rest ih =>
      obtain ⟨a, c⟩ := p
      by_cases hak : a = key
      · simp only [deleteKey, hak, if_pos rfl]
        exact ih.cons _
      · simp only [deleteKey, if_neg hak]
        exact ih.cons₂ _

theorem mem_map_fst_deleteKey {l : List (JSKey × Nat)} {key x : JSKey} :
    x ∈ (deleteKey l key).map Prod.fst ↔ x ∈ l.map Prod.fst ∧ x ≠ key := by
  induction l with
  | nil => simp [deleteKey]
  | cons p rest ih =>
      obtain ⟨a, c⟩ := p
      by_cases hak : a = key
      · have hd : deleteKey ((a, c) :: rest) key = deleteKey rest key := by
          simp [deleteKey, hak]
        rw [hd, ih]
        subst hak
        simp only [List.map_cons, List.mem_cons]
        constructor
        · rintro ⟨hm, hne⟩
          exact ⟨Or.inr hm, hne⟩
        · rintro ⟨hm | hm, hne⟩
          · exact absurd hm hne
          · exact ⟨hm, hne⟩
      · have hd : deleteKey ((a, c) :: rest) key = (a, c) :: deleteKey rest key := by
          simp [deleteKey, hak]
        rw [hd]
        simp only [List.map_cons, List.mem_cons, ih]
        constructor
        · rintro (rfl | ⟨hm, hne⟩)
          · exact ⟨Or.inl rfl, hak⟩
          · exact ⟨Or.inr hm, hne⟩
        · rintro ⟨rfl | hm, hne⟩
          · exact Or.inl rfl
          · exact Or.inr ⟨hm, hne⟩

theorem heapGet_heapSet (st : St) (r : Nat) (v : List Nat) (r' : Nat) :
    heapGet (heapSet st r v) r' = if r = r' then v else heapGet st r' := by
  by_cases h : r = r' <;> simp [heapGet, heapSet, assocFind, h]

theorem listenerCount_eq (st : St) (k : JSKey) :
    listenerCountOp st k = (listsOf st k).length := by
  unfold listenerCountOp listsOf
  cases assocFind st.eventsObj k <;> simp

theorem listsOf_onOp_self (st : St) (k : JSKey) (f : Nat) :
    listsOf (onOp st k f) k = listsOf st k ++ [f] := by
  unfold onOp listsOf listenersOp
  cases h : assocFind st.eventsObj k with
  | some r =>
      simp [h, heapSet, heapGet, assocFind, assocFind_storeKeyList]
  | none =>
      simp [h, allocArr, heapSet, heapGet, assocFind, assocFind_storeKeyList]

theorem listsOf_onOp_other (st : St) (hwf : WfSt st) (k k' : JSKey) (f : Nat)
    (hne : k' ≠ k) : listsOf (onOp st k f) k' = listsOf st k' := by
  have hkk : ¬ k = k' := fun h => hne h.symm
  unfold onOp listsOf listenersOp
  cases h : assocFind st.eventsObj k with
  | some r =>
      simp only [heapSet, assocFind_storeKeyList, if_neg hkk]
      cases h2 : assocFind st.eventsObj k' with
      | some r2 =>
          have hr2 : r ≠ r2 := fun heq =>
            hne (hwf.evInj k' k r (heq ▸ h2) h)
          simp [heapGet, assocFind, h2, hr2]
      | none => simp [h2]
  | none =>
      simp only [allocArr, heapSet, assocFind_storeKeyList, if_neg hkk]
      cases h2 : assocFind st.eventsObj k' with
      | some r2 =>
          have hr2 : st.nextRef ≠ r2 := by
            have := hwf.evLt k' r2 h2
            omega
          simp [heapGet, assocFind, h2, hr2]
      | none => simp [h2]

theorem eventsKeys_onOp (st : St) (k : JSKey) (f : Nat) :
    (onOp st k f).eventsObj.map Prod.fst =
      if k ∈ st.eventsObj.map Prod.fst then st.eventsObj.map Prod.fst
      else st.eventsObj.map Prod.fst ++ [k] := by
  unfold onOp listenersOp
  cases h : assocFind st.eventsObj k with
  | some r => simp [heapSet, map_fst_storeKeyList]
  | none => simp [allocArr, heapSet, map_fst_storeKeyList]

theorem offOp_absent (st : St) (k : JSKey) (f : Nat)
    (h : assocFind st.eventsObj k = none) : offOp st k f = st := by
  unfold offOp
  simp [h]

theorem listsOf_offOp_self (st : St) (k : JSKey) (f : Nat) :
    listsOf (offOp st k f) k = (listsOf st k).filter (fun g => g ≠ f) := by
  unfold offOp listsOf
  cases h : assocFind st.eventsObj k with
  | some r =>
      simp [h, allocArr, heapSet, heapGet, assocFind, assocFind_storeKeyList]
  | none => simp [h]

theorem listsOf_offOp_other (st : St) (hwf : WfSt st) (k k' : JSKey) (f : Nat)
    (hne : k' ≠ k) : listsOf (offOp st k f) k' = listsOf st k' := by
  have hkk : ¬ k = k' := fun h => hne h.symm
  unfold offOp listsOf
  cases h : assocFind st.eventsObj k with
  | some r =>
      simp only [allocArr, heapSet, assocFind_storeKeyList, if_neg hkk]
      cases h2 : assocFind st.eventsObj k' with
      | some r2 =>
          have hr2 : st.nextRef ≠ r2 := by
            have := hwf.evLt k' r2 h2
            omega
          simp [heapGet, assocFind, h2, hr2]
      | none => simp [h2]
  | none => simp [h]

theorem eventsKeys_offOp (st : St) (k : JSKey) (f : Nat) :
    (offOp st k f).eventsObj.map Prod.fst = st.eventsObj.map Prod.fst := by
  unfold offOp
  cases h : assocFind st.eventsObj k with
  | some r =>
      have hk : k ∈ st.eventsObj.map Prod.fst := key_mem_of_assocFind h
      simp [allocArr, heapSet, map_fst_storeKeyList, hk]
  | none => rfl

theorem eventNames_offOp (st : St) (k : JSKey) (f : Nat) :
    eventNamesOp (offOp st k f) = eventNamesOp st := by
  unfold eventNamesOp
  rw [eventsKeys_offOp]

theorem onceOp_fst (st : St) (k : JSKey) (f : Nat) :
    (onceOp st k f).1 = st.nextFn := rfl

theorem onceOp_proxy_def (st : St) (k : JSKey) (f : Nat) :
    assocFind (onceOp st k f).2.fns st.nextFn = some (FnDef.proxy f k) := by
  unfold onceOp onOp listenersOp
  cases h : assocFind st.eventsObj k <;>
    simp [h, allocArr, heapSet, assocFind]

theorem listsOf_onceOp_self (st : St) (k : JSKey) (f : Nat) :
    listsOf (onceOp st k f).2 k = listsOf st k ++ [st.nextFn] := by
  unfold onceOp
  have h := listsOf_onOp_self
    { st with fns := (st.nextFn, FnDef.proxy f k) :: st.fns, nextFn := st.nextFn + 1 }
    k st.nextFn
  simp only [listsOf] at h ⊢
  exact h

theorem key_kind (x : JSKey) :
    isIdxKey x = true ∨ isPlainStrKey x = true ∨ isSymKey x = true := by
  cases x with
  | str s =>
      cases h : isArrayIndex s with
      | some n => exact Or.inl (by simp [isIdxKey, h])
      | none => exact Or.inr (Or.inl (by simp [isPlainStrKey, h]))
  | sym i => exact Or.inr (Or.inr rfl)

theorem mem_insSorted (x y : JSKey) (l : List JSKey) :
    y ∈ insSorted x l ↔ y = x ∨ y ∈ l := by
  induction l with
  | nil => simp [insSorted]
  | cons z zs ih =>
      by_cases h : idxVal x ≤ idxVal z
      · simp [insSorted, h, List.mem_cons]
      · simp only [insSorted, if_neg h, List.mem_cons, ih]
        tauto

theorem mem_sortIdx (x : JSKey) (l : List JSKey) :
    x ∈ sortIdx l ↔ x ∈ l := by
  induction l with
  | nil => simp [sortIdx]
  | cons z zs ih =>
      simp only [sortIdx, mem_insSorted, List.mem_cons, ih]

theorem mem_ownKeys (x : JSKey) (ks : List JSKey) :
    x ∈ ownKeys ks ↔ x ∈ ks := by
  unfold ownKeys
  simp only [List.mem_append, mem_sortIdx, List.mem_filter]
  constructor
  · rintro ((⟨h, _⟩ | ⟨h, _⟩) | ⟨h, _⟩) <;> exact h
  · intro h
    rcases key_kind x with hk | hk | hk
    · exact Or.inl (Or.inl ⟨h, hk⟩)
    · exact Or.inl (Or.inr ⟨h, hk⟩)
    · exact Or.inr ⟨h, hk⟩

theorem mem_eventNames (st : St) (x : JSKey) :
    x ∈ eventNamesOp st ↔ x ∈ st.eventsObj.map Prod.fst := by
  unfold eventNamesOp
  exact mem_ownKeys x _

theorem ext_refl (st : St) : Ext st st :=
  ⟨le_refl _, le_refl _, fun r _ => ⟨[], (List.append_nil _).symm⟩,
    fun _ _ h => h, ⟨[], (List.append_nil _).symm⟩⟩

theorem ext_trans {a b c : St} (h₁ : Ext a b) (h₂ : Ext b c) : Ext a c := by
  refine ⟨le_trans h₁.refLe h₂.refLe, le_trans h₁.fnLe h₂.fnLe, ?_, ?_, ?_⟩
  · intro r hr
    obtain ⟨t, ht⟩ := h₁.heapExt r hr
    obtain ⟨u, hu⟩ := h₂.heapExt r (lt_of_lt_of_le hr h₁.refLe)
    exact ⟨t ++ u, by rw [hu, ht, List.append_assoc]⟩
  · intro f d h
    exact h₂.fnsPres f d (h₁.fnsPres f d h)
  · obtain ⟨t, ht⟩ := h₁.traceExt
    obtain ⟨u, hu⟩ := h₂.traceExt
    exact ⟨t ++ u, by rw [hu, ht, List.append_assoc]⟩

theorem listenersOp_ext (st : St) (k : JSKey) : Ext st (listenersOp st k).2 := by
  unfold listenersOp
  cases h : assocFind st.eventsObj k with
  | some r => exact ext_refl st
  | none =>
      refine ⟨by simp [allocArr], by simp [allocArr], ?_, by simp [allocArr], by simp [allocArr]⟩
      intro r hr
      have : st.nextRef ≠ r := by omega
      exact ⟨[], by simp [allocArr, heapGet, assocFind, this]⟩

theorem listenersOp_wf (st : St) (k : JSKey) (hwf : WfSt st) :
    WfSt (listenersOp st k).2 := by
  unfold listenersOp
  cases h : assocFind st.eventsObj k with
  | some r => exact hwf
  | none =>
      refine ⟨?_, ?_, ?_, ?_, ?_⟩
      · intro k2 r2 h2
        simp only [allocArr] at h2 ⊢
        have := hwf.evLt k2 r2 h2
        omega
      · intro k1 k2 r2 h1 h2
        exact hwf.evInj k1 k2 r2 h1 h2
      · intro p hp
        simp only [allocArr] at hp ⊢
        rcases List.mem_cons.mp hp with h1 | h1
        · simp [h1]
        · have := hwf.heapLt p h1
          omega
      · exact hwf.fnLt
      · exact hwf.keysNd

theorem listenersOp_ref_lt (st : St) (k : JSKey) (hwf : WfSt st) :
    (listenersOp st k).1 < (listenersOp st k).2.nextRef := by
  unfold listenersOp
  cases h : assocFind st.eventsObj k with
  | some r => exact hwf.evLt k r h
  | none => simp [allocArr]

theorem listenersOp_events (st : St) (k : JSKey) :
    (listenersOp st k).2.eventsObj = st.eventsObj := by
  unfold listenersOp
  cases assocFind st.eventsObj k <;> simp [allocArr]

theorem listenersOp_fns (st : St) (k : JSKey) :
    (listenersOp st k).2.fns = st.fns := by
  unfold listenersOp
  cases assocFind st.eventsObj k <;> simp [allocArr]

theorem onOp_ext (st : St) (k : JSKey) (f : Nat) : Ext st (onOp st k f) := by
  unfold onOp
  cases h : assocFind st.eventsObj k with
  | some r =>
      simp only [listenersOp, h]
      refine ⟨by simp [heapSet], by simp [heapSet], ?_, by simp [heapSet], by simp [heapSet]⟩
      intro r2 hr2
      by_cases hrr : r = r2
      · subst hrr
        exact ⟨[f], by simp [heapSet, heapGet, assocFind]⟩
      · exact ⟨[], by simp [heapSet, heapGet, assocFind, hrr]⟩
  | none =>
      simp only [listenersOp, h]
      refine ⟨by simp [allocArr, heapSet], by simp [allocArr, heapSet], ?_,
        by simp [allocArr, heapSet], by simp [allocArr, heapSet]⟩
      intro r2 hr2
      have h1 : st.nextRef ≠ r2 := by omega
      exact ⟨[], by simp [allocArr, heapSet, heapGet, assocFind, h1]⟩

theorem onOp_wf (st : St) (k : JSKey) (f : Nat) (hwf : WfSt st) :
    WfSt (onOp st k f) := by
  unfold onOp
  cases h : assocFind st.eventsObj k with
  | some r =>
      simp only [listenersOp, h]
      refine ⟨?_, ?_, ?_, ?_, ?_⟩
      · intro k2 r2 h2
        simp only [heapSet, assocFind_storeKeyList] at h2 ⊢
        by_cases hk2 : k = k2
        · simp only [if_pos hk2] at h2
          cases h2
          exact hwf.evLt k r h
        · simp only [if_neg hk2] at h2
          exact hwf.evLt k2 r2 h2
      · intro k1 k2 r2 h1 h2
        simp only [heapSet, assocFind_storeKeyList] at h1 h2
        by_cases hk1 : k = k1 <;> by_cases hk2 : k = k2
        · rw [← hk1, ← hk2]
        · subst hk1
          simp only [if_pos rfl] at h1
          simp only [if_neg hk2] at h2
          cases h1
          exact absurd (hwf.evInj k k2 r h h2) hk2
        · subst hk2
          simp only [if_pos rfl] at h2
          simp only [if_neg hk1] at h1
          cases h2
          exact absurd (hwf.evInj k k1 r h h1) hk1
        · simp only [if_neg hk1] at h1
          simp only [if_neg hk2] at h2
          exact hwf.evInj k1 k2 r2 h1 h2
      · intro p hp
        simp only [heapSet] at hp
        rcases List.mem_cons.mp hp with h1 | h1
        · subst h1
          exact hwf.evLt k r h
        · exact hwf.heapLt p h1
      · intro p hp
        exact hwf.fnLt p hp
      · simp only [heapSet, map_fst_storeKeyList]
        by_cases hm : k ∈ st.eventsObj.map Prod.fst
        · simp only [if_pos hm]
          exact hwf.keysNd
        · simp only [if_neg hm]
          exact List.Nodup.append hwf.keysNd (List.nodup_singleton k)
            (by simpa using hm)
  | none =>
      simp only [listenersOp, h]
      refine ⟨?_, ?_, ?_, ?_, ?_⟩
      · intro k2 r2 h2
        simp only [allocArr, heapSet, assocFind_storeKeyList] at h2 ⊢
        by_cases hk2 : k = k2
        · simp only [if_pos hk2] at h2
          cases h2
          omega
        · simp only [if_neg hk2] at h2
          have := hwf.evLt k2 r2 h2
          omega
      · intro k1 k2 r2 h1 h2
        simp only [allocArr, heapSet, assocFind_storeKeyList] at h1 h2
        by_cases hk1 : k = k1 <;> by_cases hk2 : k = k2
        · rw [← hk1, ← hk2]
        · subst hk1
          simp only [if_pos rfl] at h1
          simp only [if_neg hk2] at h2
          cases h1
          have := hwf.evLt k2 st.nextRef h2
          omega
        · subst hk2
          simp only [if_pos rfl] at h2
          simp only [if_neg hk1] at h1
          cases h2
          have := hwf.evLt k1 st.nextRef h1
          omega
        · simp only [if_neg hk1] at h1
          simp only [if_neg hk2] at h2
          exact hwf.evInj k1 k2 r2 h1 h2
      · intro p hp
        simp only [allocArr, heapSet] at hp ⊢
        rcases List.mem_cons.mp hp with h1 | h1
        · simp [h1]
        · rcases List.mem_cons.mp h1 with h2 | h2
          · simp [h2]
          · have := hwf.heapLt p h2
            omega
      · intro p hp
        simp only [allocArr, heapSet] at hp
        exact hwf.fnLt p hp
      · simp only [allocArr, heapSet, map_fst_storeKeyList]
        by_cases hm : k ∈ st.eventsObj.map Prod.fst
        · simp only [if_pos hm]
          exact hwf.keysNd
        · simp only [if_neg hm]
          exact List.Nodup.append hwf.keysNd (List.nodup_singleton k)
            (by simpa using hm)

theorem ext_of_same (st st' : St) (h1 : st'.heap = st.heap)
    (h2 : st'.nextRef = st.nextRef) (h3 : st'.fns = st.fns)
    (h4 : st'.trace = st.trace) (h5 : st'.nextFn = st.nextFn) :
    Ext st st' := by
  refine ⟨by omega, by omega, ?_, ?_, ⟨[], by simp [h4]⟩⟩
  · intro r hr
    exact ⟨[], by simp [heapGet, h1]⟩
  · intro f d h
    rw [h3]
    exact h

theorem offOp_ext (st : St) (k : JSKey) (f : Nat) : Ext st (offOp st k f) := by
  unfold offOp
  cases h : assocFind st.eventsObj k with
  | none => exact ext_refl st
  | some r =>
      refine ⟨by simp [allocArr, heapSet], by simp [allocArr, heapSet], ?_,
        by simp [allocArr, heapSet], by simp [allocArr, heapSet]⟩
      intro r2 hr2
      have h1 : st.nextRef ≠ r2 := by omega
      exact ⟨[], by simp [allocArr, heapSet, heapGet, assocFind, h1]⟩

theorem offOp_wf (st : St) (k : JSKey) (f : Nat) (hwf : WfSt st) :
    WfSt (offOp st k f) := by
  unfold offOp
  cases h : assocFind st.eventsObj k with
  | none => exact hwf
  | some r =>
      refine ⟨?_, ?_, ?_, ?_, ?_⟩
      · intro k2 r2 h2
        simp only [allocArr, heapSet, assocFind_storeKeyList] at h2 ⊢
        by_cases hk2 : k = k2
        · simp only [if_pos hk2] at h2
          cases h2
          omega
        · simp only [if_neg hk2] at h2
          have := hwf.evLt k2 r2 h2
          omega
      · intro k1 k2 r2 h1 h2
        simp only [allocArr, heapSet, assocFind_storeKeyList] at h1 h2
        by_cases hk1 : k = k1 <;> by_cases hk2 : k = k2
        · rw [← hk1, ← hk2]
        · subst hk1
          simp only [if_pos rfl] at h1
          simp only [if_neg hk2] at h2
          cases h1
          have := hwf.evLt k2 st.nextRef h2
          omega
        · subst hk2
          simp only [if_pos rfl] at h2
          simp only [if_neg hk1] at h1
          cases h2
          have := hwf.evLt k1 st.nextRef h1
          omega
        · simp only [if_neg hk1] at h1
          simp only [if_neg hk2] at h2
          exact hwf.evInj k1 k2 r2 h1 h2
      · intro p hp
        simp only [allocArr, heapSet] at hp ⊢
        rcases List.mem_cons.mp hp with h1 | h1
        · simp [h1]
        · rcases List.mem_cons.mp h1 with h2 | h2
          · simp [h2]
          · have := hwf.heapLt p h2
            omega
      · intro p hp
        simp only [allocArr, heapSet] at hp
        exact hwf.fnLt p hp
      · simp only [allocArr, heapSet, map_fst_storeKeyList]
        have hk : k ∈ st.eventsObj.map Prod.fst := key_mem_of_assocFind h
        simp only [if_pos hk]
        exact hwf.keysNd

theorem onceOp_ext (st : St) (k : JSKey) (f : Nat) (hwf : WfSt st) :
    Ext st (onceOp st k f).2 := by
  have e1 : Ext st { st with fns := (st.nextFn, FnDef.proxy f k) :: st.fns, nextFn := st.nextFn + 1 } := by
    refine ⟨le_refl _, by simp, fun r hr => ⟨[], by simp [heapGet]⟩, ?_,
      ⟨[], by simp⟩⟩
    intro f2 d h2
    have hm := assocFind_mem h2
    have := hwf.fnLt _ hm
    have hne : ¬ st.nextFn = f2 := by omega
    simp only [assocFind, if_neg hne]
    exact h2
  exact ext_trans e1 (onOp_ext _ k st.nextFn)

theorem onceOp_wf (st : St) (k : JSKey) (f : Nat) (hwf : WfSt st) :
    WfSt (onceOp st k f).2 := by
  unfold onceOp
  apply onOp_wf
  refine ⟨hwf.evLt, hwf.evInj, hwf.heapLt, ?_, hwf.keysNd⟩
  intro p hp
  simp only [List.mem_cons] at hp
  rcases hp with h1 | h1
  · simp [h1]
  · have := hwf.fnLt p h1
    simp only
    omega

theorem removeAllOp_ext (st : St) (k : Option JSKey) :
    Ext st (removeAllOp st k) := by
  unfold removeAllOp
  cases k with
  | none => exact ext_of_same st _ rfl rfl rfl rfl rfl
  | some key =>
      by_cases ht : key.truthy <;> simp only [ht, if_true, if_false,
        Bool.false_eq_true] <;> exact ext_of_same st _ rfl rfl rfl rfl rfl

theorem removeAllOp_wf (st : St) (k : Option JSKey) (hwf : WfSt st) :
    WfSt (removeAllOp st k) := by
  unfold removeAllOp
  have hnil : WfSt { st with eventsObj := ([] : List (JSKey × Nat)) } := by
    refine ⟨?_, ?_, hwf.heapLt, hwf.fnLt, by simp⟩
    · intro k2 r2 h2
      simp [assocFind] at h2
    · intro k1 k2 r2 h1 h2
      simp [assocFind] at h1
  cases k with
  | none => exact hnil
  | some key =>
      by_cases ht : key.truthy
      · simp only [ht, if_true]
        refine ⟨?_, ?_, hwf.heapLt, hwf.fnLt, ?_⟩
        · intro k2 r2 h2
          rw [assocFind_deleteKey] at h2
          by_cases hk2 : k2 = key
          · simp [hk2] at h2
          · simp only [if_neg hk2] at h2
            exact hwf.evLt k2 r2 h2
        · intro k1 k2 r2 h1 h2
          rw [assocFind_deleteKey] at h1 h2
          by_cases hk1 : k1 = key
          · simp [hk1] at h1
          · by_cases hk2 : k2 = key
            · simp [hk2] at h2
            · simp only [if_neg hk1] at h1
              simp only [if_neg hk2] at h2
              exact hwf.evInj k1 k2 r2 h1 h2
        · exact List.Nodup.sublist
            (List.Sublist.map Prod.fst (deleteKey_sublist st.eventsObj key))
            hwf.keysNd
      · simp only [ht, Bool.false_eq_true, if_false]
        exact hnil

theorem pushTrace_ext (st : St) (f : Nat) (args : List Nat) :
    Ext st (pushTrace st f args) :=
  ⟨le_refl _, le_refl _, fun r _ => ⟨[], by simp [heapGet, pushTrace]⟩,
    fun _ _ h => h, ⟨[(f, args)], rfl⟩⟩

theorem pushTrace_wf (st : St) (f : Nat) (args : List Nat) (hwf : WfSt st) :
    WfSt (pushTrace st f args) :=
  ⟨hwf.evLt, hwf.evInj, hwf.heapLt, hwf.fnLt, hwf.keysNd⟩

theorem snapSt_ext (st : St) (n : Nat) :
    Ext st { st with obs := st.obs ++ [n] } :=
  ext_of_same st _ rfl rfl rfl rfl rfl

theorem snapSt_wf (st : St) (n : Nat) (hwf : WfSt st) :
    WfSt { st with obs := st.obs ++ [n] } :=
  ⟨hwf.evLt, hwf.evInj, hwf.heapLt, hwf.fnLt, hwf.keysNd⟩

theorem andThen_none (s : St) (f : St → St × Option JSErr) :
    andThen (s, none) f = f s := rfl

theorem andThen_some (s : St) (e : JSErr) (f : St → St × Option JSErr) :
    andThen (s, some e) f = (s, some e) := rfl

theorem run_zero (st : St) (c : Call) :
    run 0 st c = (st, some JSErr.fuelOut) := rfl

theorem run_emit (fuel : Nat) (st : St) (k : JSKey) (args : List Nat) :
    run (fuel + 1) st (.emitCall k args) =
      run fuel (listenersOp st k).2 (.loopCall (listenersOp st k).1 args 0) := rfl

theorem run_loop_lt (fuel : Nat) (st : St) (r : Nat) (args : List Nat) (i : Nat)
    (h : i < (heapGet st r).length) :
    run (fuel + 1) st (.loopCall r args i) =
      andThen (run fuel st (.fnCall ((heapGet st r).get ⟨i, h⟩) args)) fun s =>
        run fuel s (.loopCall r args (i + 1)) := by
  simp [run, h]

theorem run_loop_ge (fuel : Nat) (st : St) (r : Nat) (args : List Nat) (i : Nat)
    (h : ¬ i < (heapGet st r).length) :
    run (fuel + 1) st (.loopCall r args i) = (st, none) := by
  simp [run, h]

theorem run_fn_plain (fuel : Nat) (st : St) (f : Nat) (args : List Nat)
    (body : List Cmd) (h : assocFind st.fns f = some (FnDef.plain body)) :
    run (fuel + 1) st (.fnCall f args) =
      run fuel (pushTrace st f args) (.cmdsCall body) := by
  have h2 : assocFind (pushTrace st f args).fns f = some (FnDef.plain body) := h
  simp [run, h2]

theorem run_fn_proxy (fuel : Nat) (st : St) (f : Nat) (args : List Nat)
    (tgt : Nat) (k : JSKey) (h : assocFind st.fns f = some (FnDef.proxy tgt k)) :
    run (fuel + 1) st (.fnCall f args) =
      andThen (run fuel (pushTrace st f args) (.fnCall tgt args)) fun s =>
        (offOp s k f, none) := by
  have h2 : assocFind (pushTrace st f args).fns f = some (FnDef.proxy tgt k) := h
  simp [run, h2]

theorem run_fn_undef (fuel : Nat) (st : St) (f : Nat) (args : List Nat)
    (h : assocFind st.fns f = none) :
    run (fuel + 1) st (.fnCall f args) = (pushTrace st f args, none) := by
  have h2 : assocFind (pushTrace st f args).fns f = none := h
  simp [run, h2]

theorem run_cmds_nil (fuel : Nat) (st : St) :
    run (fuel + 1) st (.cmdsCall []) = (st, none) := rfl

theorem run_cmds_on (fuel : Nat) (st : St) (k : JSKey) (f : Nat) (cs : List Cmd) :
    run (fuel + 1) st (.cmdsCall (Cmd.onC k f :: cs)) =
      run fuel (onOp st k f) (.cmdsCall cs) := rfl

theorem run_cmds_once (fuel : Nat) (st : St) (k : JSKey) (f : Nat) (cs : List Cmd) :
    run (fuel + 1) st (.cmdsCall (Cmd.onceC k f :: cs)) =
      run fuel (onceOp st k f).2 (.cmdsCall cs) := rfl

theorem run_cmds_off (fuel : Nat) (st : St) (k : JSKey) (f : Nat) (cs : List Cmd) :
    run (fuel + 1) st (.cmdsCall (Cmd.offC k f :: cs)) =
      run fuel (offOp st k f) (.cmdsCall cs) := rfl

theorem run_cmds_snap (fuel : Nat) (st : St) (k : JSKey) (cs : List Cmd) :
    run (fuel + 1) st (.cmdsCall (Cmd.snapC k :: cs)) =
      run fuel { st with obs := st.obs ++ [listenerCountOp st k] } (.cmdsCall cs) := rfl

theorem run_cmds_throw (fuel : Nat) (st : St) (n : Nat) (cs : List Cmd) :
    run (fuel + 1) st (.cmdsCall (Cmd.throwC n :: cs)) =
      (st, some (JSErr.thrown n)) := rfl

theorem run_cmds_emit (fuel : Nat) (st : St) (k : JSKey) (args : List Nat)
    (cs : List Cmd) :
    run (fuel + 1) st (.cmdsCall (Cmd.emitC k args :: cs)) =
      andThen (run fuel st (.emitCall k args)) fun s =>
        run fuel s (.cmdsCall cs) := rfl

theorem run_wf_ext : ∀ (fuel : Nat) (st : St) (c : Call) (s : St),
    WfSt st → run fuel st c = (s, none) → WfSt s ∧ Ext st s := by
  intro fuel
  induction fuel with
  | zero =>
      intro st c s hwf h
      rw [run_zero] at h
      cases h
  | succ fuel ih =>
      intro st c s hwf h
      cases c with
      | emitCall k args =>
          rw [run_emit] at h
          obtain ⟨hwf1, he1⟩ := ih _ _ _ (listenersOp_wf st k hwf) h
          exact ⟨hwf1, ext_trans (listenersOp_ext st k) he1⟩
      | loopCall r args i =>
          by_cases hlt : i < (heapGet st r).length
          · rw [run_loop_lt fuel st r args i hlt] at h
            cases hrun : run fuel st (.fnCall ((heapGet st r).get ⟨i, hlt⟩) args) with
            | mk s₁ e₁ =>
                rw [hrun] at h
                cases e₁ with
                | some e => rw [andThen_some] at h; cases h
                | none =>
                    rw [andThen_none] at h
                    obtain ⟨hwf1, he1⟩ := ih _ _ _ hwf hrun
                    obtain ⟨hwf2, he2⟩ := ih _ _ _ hwf1 h
                    exact ⟨hwf2, ext_trans he1 he2⟩
          · rw [run_loop_ge fuel st r args i hlt] at h
            cases h
            exact ⟨hwf, ext_refl st⟩
      | fnCall f args =>
          have hwfT := pushTrace_wf st f args hwf
          have heT := pushTrace_ext st f args
          cases hfd : assocFind st.fns f with
          | none =>
              rw [run_fn_undef fuel st f args hfd] at h
              cases h
              exact ⟨hwfT, heT⟩
          | some d =>
              cases d with
              | plain body =>
                  rw [run_fn_plain fuel st f args body hfd] at h
                  obtain ⟨hwf1, he1⟩ := ih _ _ _ hwfT h
                  exact ⟨hwf1, ext_trans heT he1⟩
              | proxy tgt kk =>
                  rw [run_fn_proxy fuel st f args tgt kk hfd] at h
                  cases hrun : run fuel (pushTrace st f args) (.fnCall tgt args) with
                  | mk s₁ e₁ =>
                      rw [hrun] at h
                      cases e₁ with
                      | some e => rw [andThen_some] at h; cases h
                      | none =>
                          rw [andThen_none] at h
                          cases h
                          obtain ⟨hwf1, he1⟩ := ih _ _ _ hwfT hrun
                          exact ⟨offOp_wf _ kk f hwf1,
                            ext_trans heT (ext_trans he1 (offOp_ext _ kk f))⟩
      | cmdsCall cs =>
          cases cs with
          | nil =>
              rw [run_cmds_nil] at h
              cases h
              exact ⟨hwf, ext_refl st⟩
          | cons cmd rest =>
              cases cmd with
              | onC k f =>
                  rw [run_cmds_on] at h
                  obtain ⟨hwf1, he1⟩ := ih _ _ _ (onOp_wf st k f hwf) h
                  exact ⟨hwf1, ext_trans (onOp_ext st k f) he1⟩
              | onceC k f =>
                  rw [run_cmds_once] at h
                  obtain ⟨hwf1, he1⟩ := ih _ _ _ (onceOp_wf st k f hwf) h
                  exact ⟨hwf1, ext_trans (onceOp_ext st k f hwf) he1⟩
              | offC k f =>
                  rw [run_cmds_off] at h
                  obtain ⟨hwf1, he1⟩ := ih _ _ _ (offOp_wf st k f hwf) h
                  exact ⟨hwf1, ext_trans (offOp_ext st k f) he1⟩
              | snapC k =>
                  rw [run_cmds_snap] at h
                  obtain ⟨hwf1, he1⟩ :=
                    ih _ _ _ (snapSt_wf st (listenerCountOp st k) hwf) h
                  exact ⟨hwf1, ext_trans (snapSt_ext st (listenerCountOp st k)) he1⟩
              | throwC n =>
                  rw [run_cmds_throw] at h
                  cases h
              | emitC k args =>
                  rw [run_cmds_emit] at h
                  cases hrun : run fuel st (.emitCall k args) with
                  | mk s₁ e₁ =>
                      rw [hrun] at h
                      cases e₁ with
                      | some e => rw [andThen_some] at h; cases h
                      | none =>
                          rw [andThen_none] at h
                          obtain ⟨hwf1, he1⟩ := ih _ _ _ hwf hrun
                          obtain ⟨hwf2, he2⟩ := ih _ _ _ hwf1 h
                          exact ⟨hwf2, ext_trans he1 he2⟩

theorem offOp_trace (st : St) (k : JSKey) (f : Nat) :
    (offOp st k f).trace = st.trace := by
  unfold offOp
  cases assocFind st.eventsObj k <;> simp [allocArr, heapSet]

theorem fn_trace (fuel : Nat) (st : St) (f : Nat) (args : List Nat) (s : St)
    (hwf : WfSt st) (h : run fuel st (.fnCall f args) = (s, none)) :
    ∃ t, s.trace = st.trace ++ (f, args) :: t := by
  cases fuel with
  | zero =>
      rw [run_zero] at h
      cases h
  | succ fuel =>
      have hwfT := pushTrace_wf st f args hwf
      cases hfd : assocFind st.fns f with
      | none =>
          rw [run_fn_undef fuel st f args hfd] at h
          cases h
          exact ⟨[], by simp [pushTrace]⟩
      | some d =>
          cases d with
          | plain body =>
              rw [run_fn_plain fuel st f args body hfd] at h
              obtain ⟨_, he⟩ := run_wf_ext fuel _ _ _ hwfT h
              obtain ⟨t, ht⟩ := he.traceExt
              exact ⟨t, by simp [ht, pushTrace]⟩
          | proxy tgt kk =>
              rw [run_fn_proxy fuel st f args tgt kk hfd] at h
              cases hrun : run fuel (pushTrace st f args) (.fnCall tgt args) with
              | mk s₁ e₁ =>
                  rw [hrun] at h
                  cases e₁ with
                  | some e => rw [andThen_some] at h; cases h
                  | none =>
                      rw [andThen_none] at h
                      cases h
                      obtain ⟨_, he⟩ := run_wf_ext fuel _ _ _ hwfT hrun
                      obtain ⟨t, ht⟩ := he.traceExt
                      exact ⟨t, by simp [offOp_trace, ht, pushTrace]⟩

theorem loop_invokes : ∀ (fuel : Nat) (st : St) (r : Nat) (args : List Nat)
    (i : Nat) (s : St), WfSt st → r < st.nextRef →
    run fuel st (.loopCall r args i) = (s, none) →
    ∀ j, i ≤ j → ∀ (hj : j < (heapGet st r).length),
      ∃ t, s.trace = st.trace ++ t ∧ ((heapGet st r).get ⟨j, hj⟩, args) ∈ t := by
  intro fuel
  induction fuel with
  | zero =>
      intro st r args i s hwf hr h
      rw [run_zero] at h
      cases h
  | succ fuel ih =>
      intro st r args i s hwf hr h j hij hj
      have hlt : i < (heapGet st r).length := lt_of_le_of_lt hij hj
      rw [run_loop_lt fuel st r args i hlt] at h
      cases hrun : run fuel st (.fnCall ((heapGet st r).get ⟨i, hlt⟩) args) with
      | mk s₁ e₁ =>
          rw [hrun] at h
          cases e₁ with
          | some e => rw [andThen_some] at h; cases h
          | none =>
              rw [andThen_none] at h
              obtain ⟨hwf1, he1⟩ := run_wf_ext fuel _ _ _ hwf hrun
              rcases Nat.eq_or_lt_of_le hij with heq | hgt
              · subst heq
                obtain ⟨t₁, ht₁⟩ := fn_trace fuel st _ args s₁ hwf hrun
                obtain ⟨_, he2⟩ := run_wf_ext fuel _ _ _ hwf1 h
                obtain ⟨t₂, ht₂⟩ := he2.traceExt
                refine ⟨((heapGet st r).get ⟨i, hj⟩, args) :: t₁ ++ t₂, ?_, ?_⟩
                · rw [ht₂, ht₁]
                  simp
                · simp
              · obtain ⟨t₀, ht₀⟩ := he1.heapExt r hr
                have hj1 : j < (heapGet s₁ r).length := by
                  rw [ht₀, List.length_append]
                  omega
                have hget : (heapGet s₁ r).get ⟨j, hj1⟩ =
                    (heapGet st r).get ⟨j, hj⟩ := by
                  revert hj1
                  rw [ht₀]
                  intro hj1
                  exact List.get_append j hj
                obtain ⟨t, ht, hmem⟩ := ih s₁ r args (i + 1) s hwf1
                  (lt_of_lt_of_le hr he1.refLe) h j hgt hj1
                obtain ⟨u, hu⟩ := he1.traceExt
                refine ⟨u ++ t, ?_, ?_⟩
                · rw [ht, hu, List.append_assoc]
                · rw [← hget]
                  exact List.mem_append_right u hmem

theorem drop_facts {l : List Nat} {i f₀ : Nat} {rest : List Nat}
    (h : l.drop i = f₀ :: rest) :
    ∃ (hi : i < l.length), l.get ⟨i, hi⟩ = f₀ ∧ l.drop (i + 1) = rest := by
  have hi : i < l.length := by
    by_contra hge
    rw [List.drop_eq_nil_of_le (by omega)] at h
    cases h
  refine ⟨hi, ?_, ?_⟩
  · have h2 := List.drop_eq_get_cons (l := l) hi
    rw [h2] at h
    exact (List.cons_eq_cons.mp h).1
  · have h2 := List.drop_eq_get_cons (l := l) hi
    rw [h2] at h
    exact (List.cons_eq_cons.mp h).2

theorem bne_zero (n : Nat) : (n != 0) = decide (n ≠ 0) := by
  cases n <;> simp

theorem loop_passive : ∀ (suf : List Nat) (fuel : Nat) (st : St) (r : Nat)
    (args : List Nat) (i : Nat),
    (heapGet st r).drop i = suf →
    (∀ f ∈ suf, assocFind st.fns f = some (FnDef.plain [])) →
    suf.length + 3 ≤ fuel →
    run fuel st (.loopCall r args i) =
      ({ st with trace := st.trace ++ suf.map (fun f => (f, args)) }, none) := by
  intro suf
  induction suf with
  | nil =>
      intro fuel st r args i hdrop hp hfuel
      obtain ⟨g, rfl⟩ : ∃ g, fuel = g + 1 := ⟨fuel - 1, by omega⟩
      have hge : ¬ i < (heapGet st r).length := by
        have := List.drop_eq_nil_iff_le.mp hdrop
        omega
      rw [run_loop_ge g st r args i hge]
      simp
  | cons f₀ rest ih =>
      intro fuel st r args i hdrop hp hfuel
      obtain ⟨g, rfl⟩ : ∃ g, fuel = g + 1 := ⟨fuel - 1, by omega⟩
      obtain ⟨hi, hget, hdrop1⟩ := drop_facts hdrop
      rw [run_loop_lt g st r args i hi, hget]
      obtain ⟨g₂, rfl⟩ : ∃ g₂, g = g₂ + 2 := ⟨g - 2, by omega⟩
      have hf₀ : assocFind st.fns f₀ = some (FnDef.plain []) := hp f₀ (by simp)
      rw [run_fn_plain (g₂ + 1) st f₀ args [] hf₀, run_cmds_nil, andThen_none]
      have hih := ih (g₂ + 2) (pushTrace st f₀ args) r args (i + 1) hdrop1
        (fun f hf => hp f (List.mem_cons_of_mem f₀ hf))
        (by simp only [List.length_cons] at hfuel; omega)
      rw [hih]
      simp [pushTrace]

theorem loop_throw : ∀ (pre : List Nat) (fuel : Nat) (st : St) (r : Nat)
    (args : List Nat) (i : Nat) (tf n : Nat) (cs : List Cmd) (post : List Nat),
    (heapGet st r).drop i = pre ++ tf :: post →
    (∀ f ∈ pre, assocFind st.fns f = some (FnDef.plain [])) →
    assocFind st.fns tf = some (FnDef.plain (Cmd.throwC n :: cs)) →
    pre.length + 3 ≤ fuel →
    run fuel st (.loopCall r args i) =
      ({ st with trace := st.trace ++ (pre ++ [tf]).map (fun f => (f, args)) },
       some (JSErr.thrown n)) := by
  intro pre
  induction pre with
  | nil =>
      intro fuel st r args i tf n cs post hdrop hp htf hfuel
      obtain ⟨g₂, rfl⟩ : ∃ g₂, fuel = g₂ + 3 := ⟨fuel - 3, by omega⟩
      rw [List.nil_append] at hdrop
      obtain ⟨hi, hget, _⟩ := drop_facts hdrop
      rw [run_loop_lt (g₂ + 2) st r args i hi, hget]
      rw [run_fn_plain (g₂ + 1) st tf args (Cmd.throwC n :: cs) htf,
        run_cmds_throw, andThen_some]
      simp [pushTrace]
  | cons f₀ rest ih =>
      intro fuel st r args i tf n cs post hdrop hp htf hfuel
      obtain ⟨g₂, rfl⟩ : ∃ g₂, fuel = g₂ + 3 := ⟨fuel - 3, by omega⟩
      rw [List.cons_append] at hdrop
      obtain ⟨hi, hget, hdrop1⟩ := drop_facts hdrop
      rw [run_loop_lt (g₂ + 2) st r args i hi, hget]
      have hf₀ : assocFind st.fns f₀ = some (FnDef.plain []) := hp f₀ (by simp)
      rw [run_fn_plain (g₂ + 1) st f₀ args [] hf₀, run_cmds_nil, andThen_none]
      have hih := ih (g₂ + 2) (pushTrace st f₀ args) r args (i + 1) tf n cs post
        hdrop1 (fun f hf => hp f (List.mem_cons_of_mem f₀ hf)) htf
        (by simp only [List.length_cons] at hfuel; omega)
      rw [hih]
      simp [pushTrace]

theorem emit_passive (st : St) (k : JSKey) (args : List Nat) (fuel : Nat)
    (hp : ∀ f ∈ listsOf st k, assocFind st.fns f = some (FnDef.plain []))
    (hfuel : (listsOf st k).length + 3 ≤ fuel) :
    emitOp fuel st k args =
      (Except.ok (decide (listenerCountOp st k ≠ 0)),
       { (listenersOp st k).2 with
         trace := st.trace ++ (listsOf st k).map (fun f => (f, args)) }) := by
  unfold emitOp
  cases hk : assocFind st.eventsObj k with
  | some r =>
      have hl : listsOf st k = heapGet st r := by simp [listsOf, hk]
      rw [hl] at hp hfuel
      have hrun := loop_passive (heapGet st r) fuel st r args 0
        (by rw [List.drop_zero]) hp (by omega)
      simp only [listenersOp, hk]
      rw [hrun]
      simp [heapGet, listenerCountOp, hk, bne_zero, hl, listsOf]
  | none =>
      have hl : listsOf st k = [] := by simp [listsOf, hk]
      simp only [listenersOp, hk]
      have hga : heapGet (allocArr st).2 (allocArr st).1 = [] := by
        simp [allocArr, heapGet, assocFind]
      rw [hl] at hfuel
      have hrun := loop_passive [] fuel (allocArr st).2 (allocArr st).1 args 0
        (by rw [List.drop_zero, hga]) (by simp) (by simpa using hfuel)
      rw [hrun]
      simp only [hl, listenerCountOp, hk, List.map_nil, List.append_nil]
      have hga2 : heapGet { st with heap := (st.nextRef, []) :: st.heap, nextRef := st.nextRef + 1 } st.nextRef = ([] : List Nat) := by
        simp [heapGet, assocFind]
      simp [allocArr, hga2]

theorem emit_throw (st : St) (k : JSKey) (args : List Nat) (fuel : Nat)
    (pre post : List Nat) (tf n : Nat) (cs : List Cmd)
    (harr : listsOf st k = pre ++ tf :: post)
    (hp : ∀ f ∈ pre, assocFind st.fns f = some (FnDef.plain []))
    (htf : assocFind st.fns tf = some (FnDef.plain (Cmd.throwC n :: cs)))
    (hfuel : pre.length + 3 ≤ fuel) :
    emitOp fuel st k args =
      (Except.error (JSErr.thrown n),
       { st with trace := st.trace ++ (pre ++ [tf]).map (fun f => (f, args)) }) := by
  unfold emitOp
  cases hk : assocFind st.eventsObj k with
  | none =>
      rw [listsOf, hk] at harr
      cases pre <;> simp at harr
  | some r =>
      have hl : heapGet st r = pre ++ tf :: post := by
        rw [listsOf, hk] at harr
        exact harr
      simp only [listenersOp, hk]
      rw [loop_throw pre fuel st r args 0 tf n cs post
        (by rw [List.drop_zero, hl]) hp htf hfuel]

theorem perm_insSorted (x : JSKey) (l : List JSKey) :
    List.Perm (insSorted x l) (x :: l) := by
  induction l with
  | nil => simp [insSorted]
  | cons y ys ih =>
      by_cases h : idxVal x ≤ idxVal y
      · simp [insSorted, h]
      · simp only [insSorted, if_neg h]
        exact List.Perm.trans (List.Perm.cons y ih) (List.Perm.swap x y ys)

theorem perm_sortIdx (l : List JSKey) : List.Perm (sortIdx l) l := by
  induction l with
  | nil => simp [sortIdx]
  | cons x xs ih =>
      exact List.Perm.trans (perm_insSorted x (sortIdx xs)) (List.Perm.cons x ih)

theorem pairwise_insSorted (x : JSKey) (l : List JSKey)
    (h : List.Pairwise (fun a b => idxVal a ≤ idxVal b) l) :
    List.Pairwise (fun a b => idxVal a ≤ idxVal b) (insSorted x l) := by
  induction l with
  | nil => simp [insSorted]
  | cons y ys ih =>
      obtain ⟨hy, hys⟩ := List.pairwise_cons.mp h
      by_cases hxy : idxVal x ≤ idxVal y
      · simp only [insSorted, if_pos hxy]
        refine List.pairwise_cons.mpr ⟨?_, h⟩
        intro b hb
        rcases List.mem_cons.mp hb with rfl | hb
        · exact hxy
        · have := hy b hb
          omega
      · simp only [insSorted, if_neg hxy]
        refine List.pairwise_cons.mpr ⟨?_, ih hys⟩
        intro b hb
        rcases (mem_insSorted x b ys).mp hb with rfl | hb
        · omega
        · exact hy b hb

theorem pairwise_sortIdx (l : List JSKey) :
    List.Pairwise (fun a b => idxVal a ≤ idxVal b) (sortIdx l) := by
  induction l with
  | nil => simp [sortIdx]
  | cons x xs ih => exact pairwise_insSorted x (sortIdx xs) ih

theorem idx_not_plainStr {x : JSKey} (h : isIdxKey x = true) :
    isPlainStrKey x = false := by
  cases x with
  | str s =>
      simp only [isIdxKey] at h
      simp only [isPlainStrKey]
      cases hi : isArrayIndex s <;> simp [hi] at h ⊢
  | sym i => rfl

theorem idx_not_sym {x : JSKey} (h : isIdxKey x = true) : isSymKey x = false := by
  cases x with
  | str s => rfl
  | sym i => simp [isIdxKey] at h

theorem plainStr_not_sym {x : JSKey} (h : isPlainStrKey x = true) :
    isSymKey x = false := by
  cases x with
  | str s => rfl
  | sym i => simp [isPlainStrKey] at h

theorem sym_not_plainStr {x : JSKey} (h : isSymKey x = true) :
    isPlainStrKey x = false := by
  cases x with
  | str s => simp [isSymKey] at h
  | sym i => rfl

theorem not_plainStr_not_idx_eq_sym (a : JSKey) :
    (!isPlainStrKey a && !isIdxKey a) = isSymKey a := by
  cases a with
  | str s =>
      simp only [isPlainStrKey, isIdxKey, isSymKey]
      cases hi : isArrayIndex s <;> simp [hi]
  | sym i => rfl

theorem plainStr_imp_not_idx (a : JSKey) :
    (isPlainStrKey a && !isIdxKey a) = isPlainStrKey a := by
  cases a with
  | str s =>
      simp only [isPlainStrKey, isIdxKey]
      cases hi : isArrayIndex s <;> simp [hi]
  | sym i => rfl

theorem perm_ownKeys (ks : List JSKey) : List.Perm (ownKeys ks) ks := by
  unfold ownKeys
  have hD := List.filter_append_perm isIdxKey ks
  have hsplit := List.filter_append_perm isPlainStrKey
    (ks.filter (fun x => !isIdxKey x))
  have hB : (ks.filter (fun x => !isIdxKey x)).filter isPlainStrKey =
      ks.filter isPlainStrKey := by
    rw [List.filter_filter]
    apply List.filter_congr
    intro a _
    exact plainStr_imp_not_idx a
  have hC : (ks.filter (fun x => !isIdxKey x)).filter
      (fun a => !isPlainStrKey a) = ks.filter isSymKey := by
    rw [List.filter_filter]
    apply List.filter_congr
    intro a _
    exact not_plainStr_not_idx_eq_sym a
  refine List.Perm.trans ?_ hD
  refine List.Perm.trans ?_ (List.Perm.append_left _ hsplit)
  rw [hB, hC, List.append_assoc]
  exact List.Perm.append_right _ (perm_sortIdx _)

theorem plainStr_not_idx {x : JSKey} (h : isPlainStrKey x = true) :
    isIdxKey x = false := by
  cases x with
  | str s =>
      simp only [isPlainStrKey] at h
      simp only [isIdxKey]
      cases hi : isArrayIndex s <;> simp [hi] at h ⊢
  | sym i => rfl

theorem sym_not_idx {x : JSKey} (h : isSymKey x = true) : isIdxKey x = false := by
  cases x with
  | str s => simp [isSymKey] at h
  | sym i => rfl

theorem filter_ownKeys_plainStr (ks : List JSKey) :
    (ownKeys ks).filter isPlainStrKey = ks.filter isPlainStrKey := by
  unfold ownKeys
  rw [List.filter_append, List.filter_append]
  have h1 : (sortIdx (ks.filter isIdxKey)).filter isPlainStrKey = [] := by
    rw [List.filter_eq_nil]
    intro a ha
    have hmem : a ∈ ks.filter isIdxKey := (perm_sortIdx _).mem_iff.mp ha
    have hidx : isIdxKey a = true := (List.mem_filter.mp hmem).2
    simp [idx_not_plainStr hidx]
  have h2 : (ks.filter isPlainStrKey).filter isPlainStrKey =
      ks.filter isPlainStrKey := by
    rw [List.filter_eq_self]
    intro a ha
    exact (List.mem_filter.mp ha).2
  have h3 : (ks.filter isSymKey).filter isPlainStrKey = [] := by
    rw [List.filter_eq_nil]
    intro a ha
    have hsym : isSymKey a = true := (List.mem_filter.mp ha).2
    simp [sym_not_plainStr hsym]
  rw [h1, h2, h3, List.nil_append, List.append_nil]

theorem filter_ownKeys_sym (ks : List JSKey) :
    (ownKeys ks).filter isSymKey = ks.filter isSymKey := by
  unfold ownKeys
  rw [List.filter_append, List.filter_append]
  have h1 : (sortIdx (ks.filter isIdxKey)).filter isSymKey = [] := by
    rw [List.filter_eq_nil]
    intro a ha
    have hmem : a ∈ ks.filter isIdxKey := (perm_sortIdx _).mem_iff.mp ha
    have hidx : isIdxKey a = true := (List.mem_filter.mp hmem).2
    simp [idx_not_sym hidx]
  have h2 : (ks.filter isPlainStrKey).filter isSymKey = [] := by
    rw [List.filter_eq_nil]
    intro a ha
    have hps : isPlainStrKey a = true := (List.mem_filter.mp ha).2
    simp [plainStr_not_sym hps]
  have h3 : (ks.filter isSymKey).filter isSymKey = ks.filter isSymKey := by
    rw [List.filter_eq_self]
    intro a ha
    exact (List.mem_filter.mp ha).2
  rw [h1, h2, h3, List.nil_append, List.nil_append]

theorem filter_ownKeys_idx (ks : List JSKey) :
    (ownKeys ks).filter isIdxKey = sortIdx (ks.filter isIdxKey) := by
  unfold ownKeys
  rw [List.filter_append, List.filter_append]
  have h1 : (sortIdx (ks.filter isIdxKey)).filter isIdxKey =
      sortIdx (ks.filter isIdxKey) := by
    rw [List.filter_eq_self]
    intro a ha
    have hmem : a ∈ ks.filter isIdxKey := (perm_sortIdx _).mem_iff.mp ha
    exact (List.mem_filter.mp hmem).2
  have h2 : (ks.filter isPlainStrKey).filter isIdxKey = [] := by
    rw [List.filter_eq_nil]
    intro a ha
    have hps : isPlainStrKey a = true := (List.mem_filter.mp ha).2
    simp [plainStr_not_idx hps]
  have h3 : (ks.filter isSymKey).filter isIdxKey = [] := by
    rw [List.filter_eq_nil]
    intro a ha
    have hsym : isSymKey a = true := (List.mem_filter.mp ha).2
    simp [sym_not_idx hsym]
  rw [h1, h2, h3, List.append_nil, List.append_nil]

theorem initSt_wf (fns : List (Nat × FnDef)) (nextFn : Nat)
    (h : ∀ p ∈ fns, p.1 < nextFn) : WfSt (initSt fns nextFn) := by
  refine ⟨?_, ?_, ?_, h, ?_⟩
  · intro k r h2
    simp [initSt, assocFind] at h2
  · intro k1 k2 r h1 h2
    simp [initSt, assocFind] at h1
  · intro p hp
    simp [initSt] at hp
  · simp [initSt]

theorem filter_ne_middle (u v : List Nat) (p : Nat) (hu : p ∉ u) (hv : p ∉ v) :
    (u ++ p :: v).filter (fun g => g ≠ p) = u ++ v := by
  rw [List.filter_append, List.filter_cons]
  have h1 : u.filter (fun g => g ≠ p) = u := by
    rw [List.filter_eq_self]
    intro a ha
    exact decide_eq_true fun heq => hu (heq ▸ ha)
  have h2 : v.filter (fun g => g ≠ p) = v := by
    rw [List.filter_eq_self]
    intro a ha
    exact decide_eq_true fun heq => hv (heq ▸ ha)
  rw [h1, h2]
  simp

/-- C1: counterexample to the claim as stated.  The claim requires the
wrapper made by `once` to remove itself from the event's sequence
*before* invoking the original listener, so a listener reading
`listenerCount` of its own event during its wrapper-triggered invocation
would observe 0, and a one-shot listener could never run more than once
even if it re-emits its own event.  In the code the `Proxy`'s `apply`
trap runs `target(...args)` first and `this.off(event, proxy)` only
afterwards: the listener observes count 1 (the wrapper is still
registered while it runs), and a re-emitting one-shot listener is
invoked at least twice. -/
theorem once_removal_order_cex :
    ((emitOp 10 onceObsSt (JSKey.sym 0) []).2.obs = [1] ∧
      (emitOp 10 onceObsSt (JSKey.sym 0) []).2.obs ≠ [0]) ∧
    2 ≤ ((emitOp 12 onceReemitSt (JSKey.sym 0) []).2.trace.filter
      (fun q => q.1 = 0)).length := by
  decide

/-- C1 (amended): the wrapper created by `once` is a fresh callable,
distinct in identity from the original listener, appended to the event's
sequence.  On invocation it first invokes the original listener with the
exact arguments it received and only then removes itself — invocation
before removal.  When the inner invocation returns normally and the
wrapper occurs exactly once in the event's sequence at that point, the
removal leaves the wrapper absent from the sequence and decreases
`listenerCount(event)` by exactly one. -/
theorem once_invoke_then_remove (st T T₂ : St) (k : JSKey) (f p : Nat)
    (d : FnDef) (args : List Nat) (fuel : Nat) (u v : List Nat)
    (hwf : WfSt st) (hf : assocFind st.fns f = some d)
    (hp : (onceOp st k f).1 = p)
    (hwfT : WfSt T)
    (hpT : assocFind T.fns p = some (FnDef.proxy f k))
    (hrun : run fuel (pushTrace T p args) (.fnCall f args) = (T₂, none))
    (honce : listsOf T₂ k = u ++ p :: v) (hu : p ∉ u) (hv : p ∉ v) :
    p ≠ f ∧
    listsOf (onceOp st k f).2 k = listsOf st k ++ [p] ∧
    run (fuel + 1) T (.fnCall p args) = (offOp T₂ k p, none) ∧
    (∃ t, (offOp T₂ k p).trace = T.trace ++ (p, args) :: (f, args) :: t) ∧
    listenerCountOp (offOp T₂ k p) k + 1 = listenerCountOp T₂ k ∧
    p ∉ listsOf (offOp T₂ k p) k := by
  have hfilter : (listsOf T₂ k).filter (fun g => g ≠ p) = u ++ v := by
    rw [honce]
    exact filter_ne_middle u v p hu hv
  refine ⟨?_, ?_, ?_, ?_, ?_, ?_⟩
  · have hlt := hwf.fnLt _ (assocFind_mem hf)
    rw [← hp, onceOp_fst]
    intro heq
    rw [heq] at hlt
    omega
  · rw [← hp, onceOp_fst]
    exact listsOf_onceOp_self st k f
  · rw [run_fn_proxy fuel T p args f k hpT, hrun, andThen_none]
  · obtain ⟨t, htr⟩ := fn_trace fuel (pushTrace T p args) f args T₂
      (pushTrace_wf T p args hwfT) hrun
    refine ⟨t, ?_⟩
    rw [offOp_trace, htr]
    simp [pushTrace]
  · rw [listenerCount_eq, listenerCount_eq, listsOf_offOp_self, hfilter, honce]
    simp
    omega
  · rw [listsOf_offOp_self, hfilter]
    intro hmem
    rcases List.mem_append.mp hmem with hm | hm
    · exact hu hm
    · exact hv hm

/-- C1 witness: the amended theorem applied to a concrete one-shot
registration (listener 0, wrapper 1) and a concrete wrapper invocation
with arguments `[9]`. -/
theorem once_invoke_then_remove_witness :
    (1 : Nat) ≠ 0 ∧
    listsOf (onceOp (initSt [(0, FnDef.plain [])] 1) (JSKey.sym 0) 0).2 (JSKey.sym 0) =
      listsOf (initSt [(0, FnDef.plain [])] 1) (JSKey.sym 0) ++ [1] ∧
    run 4 onceWitSt (.fnCall 1 [9]) = (offOp onceWitSt2 (JSKey.sym 0) 1, none) ∧
    (∃ t, (offOp onceWitSt2 (JSKey.sym 0) 1).trace =
      onceWitSt.trace ++ (1, [9]) :: (0, [9]) :: t) ∧
    listenerCountOp (offOp onceWitSt2 (JSKey.sym 0) 1) (JSKey.sym 0) + 1 =
      listenerCountOp onceWitSt2 (JSKey.sym 0) ∧
    1 ∉ listsOf (offOp onceWitSt2 (JSKey.sym 0) 1) (JSKey.sym 0) :=
  once_invoke_then_remove (initSt [(0, FnDef.plain [])] 1) onceWitSt onceWitSt2
    (JSKey.sym 0) 0 1 (FnDef.plain []) [9] 3 [] []
    (initSt_wf _ _ (by decide)) (by decide) rfl
    (onceOp_wf _ _ _ (initSt_wf _ _ (by decide)))
    (by decide) (by decide) (by decide) (by decide) (by decide)

/-- C2: `emit(event, ...args)` returns `false` iff `listenerCount(event)`
is 0 at call start, otherwise `true`; and, with the registered listeners
passive (bodies that do not mutate the registry), every listener
registered at call start is invoked exactly once, with exactly the given
arguments, in registration order: the invocation log grows by exactly the
registered sequence paired with `args`. -/
theorem emit_contract (st : St) (k : JSKey) (args : List Nat) (fuel : Nat)
    (hp : ∀ f ∈ listsOf st k, assocFind st.fns f = some (FnDef.plain []))
    (hfuel : (listsOf st k).length + 3 ≤ fuel) :
    (resOf (emitOp fuel st k args) = some false ↔ listenerCountOp st k = 0) ∧
    (resOf (emitOp fuel st k args) = some true ↔ listenerCountOp st k ≠ 0) ∧
    (emitOp fuel st k args).2.trace =
      st.trace ++ (listsOf st k).map (fun f => (f, args)) := by
  rw [emit_passive st k args fuel hp hfuel]
  refine ⟨?_, ?_, rfl⟩
  · by_cases hc : listenerCountOp st k = 0 <;> simp [resOf, hc]
  · by_cases hc : listenerCountOp st k = 0 <;> simp [resOf, hc]

/-- C2 witness: the contract applied to three passive registrations
(listener 0 registered twice) with arguments `[4]`. -/
theorem emit_contract_witness :
    (resOf (emitOp 6 dupListenerSt (JSKey.sym 0) [4]) = some false ↔
      listenerCountOp dupListenerSt (JSKey.sym 0) = 0) ∧
    (resOf (emitOp 6 dupListenerSt (JSKey.sym 0) [4]) = some true ↔
      listenerCountOp dupListenerSt (JSKey.sym 0) ≠ 0) ∧
    (emitOp 6 dupListenerSt (JSKey.sym 0) [4]).2.trace =
      dupListenerSt.trace ++
        (listsOf dupListenerSt (JSKey.sym 0)).map (fun f => (f, [4])) :=
  emit_contract dupListenerSt (JSKey.sym 0) [4] 6 (by decide) (by decide)

/-- C3: counterexample.  At emit-start the event's sequence is just
listener 0; listener 0 registers listener 1 for the same event during the
emit, and the invocation log of that same emit call is
`[(0, [5]), (1, [5])]` — the newly added listener ran within the same
emit, so `emit` does not iterate a stable snapshot taken at emit-start. -/
theorem emit_snapshot_cex :
    listsOf addDuringEmitSt (JSKey.sym 0) = [0] ∧
    (emitOp 10 addDuringEmitSt (JSKey.sym 0) [5]).2.trace =
      [(0, [5]), (1, [5])] := by
  decide

/-- C3 (amended): `emit` iterates the live listener array, not a
snapshot: a listener registered for the same event by a running listener
is pushed onto the array being iterated and is invoked later in that same
emit call (shown on the add-during-emit scenario for every argument
list). -/
theorem emit_live_array (args : List Nat) :
    (emitOp 6 addDuringEmitSt (JSKey.sym 0) args).2.trace =
      [(0, args), (1, args)] ∧
    resOf (emitOp 6 addDuringEmitSt (JSKey.sym 0) args) = some true := by
  constructor <;>
    simp [emitOp, addDuringEmitSt, initSt, onOp, listenersOp, assocFind,
      heapGet, heapSet, allocArr, storeKeyList, run, andThen, pushTrace,
      listenerCountOp, onceOp, offOp, resOf]

/-- C4: no listener of the emit-start snapshot is skipped: whenever
`emit` completes normally, every listener in the event's array at
emit-start — in particular every not-yet-run listener surviving a
mid-emission removal of an already-run listener — is invoked during that
emit call with exactly the given arguments.  (`off` replaces the backing
array wholesale, so the iteration continues over the array captured at
emit-start, which only ever grows.) -/
theorem emit_no_skip (fuel : Nat) (st : St) (k : JSKey) (args : List Nat)
    (b : Bool) (s : St) (hwf : WfSt st)
    (h : emitOp fuel st k args = (Except.ok b, s)) :
    ∀ f ∈ listsOf st k, ∃ t, s.trace = st.trace ++ t ∧ (f, args) ∈ t := by
  unfold emitOp at h
  intro f hf
  cases hk : assocFind st.eventsObj k with
  | none =>
      rw [listsOf, hk] at hf
      cases hf
  | some r =>
      simp only [listenersOp, hk] at h
      have hl : listsOf st k = heapGet st r := by
        rw [listsOf, hk]
      rw [hl] at hf
      obtain ⟨⟨j, hj⟩, hget⟩ := List.mem_iff_get.mp hf
      cases hrun : run fuel st (.loopCall r args 0) with
      | mk s₁ e₁ =>
          rw [hrun] at h
          cases e₁ with
          | some e => cases h
          | none =>
              have hs : s = s₁ := (congrArg Prod.snd h).symm
              subst hs
              have hres := loop_invokes fuel st r args 0 s hwf
                (hwf.evLt k r hk) hrun j (Nat.zero_le j) hj
              rw [hget] at hres
              exact hres

/-- C4 witness: on the remove-during-emit scenario (listener 1 removes
the already-run listener 0 mid-emission), listener 1 — registered at
emit-start and not removed — is still invoked in the same emit call. -/
theorem emit_no_skip_witness :
    ∃ t, (emitOp 8 removeDuringEmitSt (JSKey.sym 0) [7]).2.trace =
      removeDuringEmitSt.trace ++ t ∧ (1, [7]) ∈ t :=
  emit_no_skip 8 removeDuringEmitSt (JSKey.sym 0) [7] true
    (emitOp 8 removeDuringEmitSt (JSKey.sym 0) [7]).2
    (onOp_wf _ _ _ (onOp_wf _ _ _ (initSt_wf _ _ (by decide))))
    rfl 1 (by decide)

/-- C5: the claim is right and the code is wrong at the empty-string
key.  With listeners registered on the empty-string key and on key "a",
`removeAllListeners("")` — a provided event key — empties the whole
registry: key "a"'s sequence is cleared and no key remains, because
`if (event)` in the code treats the empty string (a falsy value) like an
omitted argument.  The claim, and the method's own documentation
("removes all listeners for the specified event"), require only the
empty-string key to be cleared. -/
theorem removeAll_empty_string_clears_all :
    listsOf emptyStrKeySt (JSKey.str "a") = [1] ∧
    listsOf (removeAllOp emptyStrKeySt (some (JSKey.str ""))) (JSKey.str "a") = [] ∧
    eventNamesOp (removeAllOp emptyStrKeySt (some (JSKey.str ""))) = [] := by
  decide

/-- C6: counterexample.  A symbol key registered before a text key: the
combined first-insertion order is `[sym 7, "a"]`, but `eventNames()`
(`Reflect.ownKeys`) returns `["a", sym 7]` — text keys are grouped before
symbol keys, not a single combined insertion order. -/
theorem eventNames_order_cex :
    symThenStrSt.eventsObj.map Prod.fst = [JSKey.sym 7, JSKey.str "a"] ∧
    eventNamesOp symThenStrSt = [JSKey.str "a", JSKey.sym 7] ∧
    eventNamesOp symThenStrSt ≠ symThenStrSt.eventsObj.map Prod.fst := by
  decide

/-- C6 (amended): `eventNames()` never contains a key more than once and
is a permutation of the keys in first-insertion order, but grouped by key
type per JavaScript own-key ordering: array-index-like text keys first in
ascending numeric order (the index segment is a permutation of the
registered index keys, sorted by their numeric value), then the remaining
text keys in first-insertion order among themselves, then symbol keys in
first-insertion order among themselves. -/
theorem eventNames_grouped (st : St) (hwf : WfSt st) :
    (eventNamesOp st).Nodup ∧
    List.Perm (eventNamesOp st) (st.eventsObj.map Prod.fst) ∧
    List.Perm ((eventNamesOp st).filter isIdxKey)
      ((st.eventsObj.map Prod.fst).filter isIdxKey) ∧
    List.Pairwise (fun a b => idxVal a ≤ idxVal b)
      ((eventNamesOp st).filter isIdxKey) ∧
    (eventNamesOp st).filter isPlainStrKey =
      (st.eventsObj.map Prod.fst).filter isPlainStrKey ∧
    (eventNamesOp st).filter isSymKey =
      (st.eventsObj.map Prod.fst).filter isSymKey ∧
    eventNamesOp st = (eventNamesOp st).filter isIdxKey ++
      (eventNamesOp st).filter isPlainStrKey ++
      (eventNamesOp st).filter isSymKey := by
  unfold eventNamesOp
  refine ⟨?_, perm_ownKeys _, ?_, ?_, filter_ownKeys_plainStr _,
    filter_ownKeys_sym _, ?_⟩
  · exact ((perm_ownKeys _).nodup_iff).mpr hwf.keysNd
  · rw [filter_ownKeys_idx]
    exact perm_sortIdx _
  · rw [filter_ownKeys_idx]
    exact pairwise_sortIdx _
  · rw [filter_ownKeys_idx, filter_ownKeys_plainStr, filter_ownKeys_sym]
    rfl

/-- C6 witness: the amended ordering facts on a scenario mixing
array-index-like text keys ("10", "2"), a plain text key ("a") and a
symbol key, registered in the order "10", sym 7, "a", "2"; additionally
the resulting order evaluates to "2", "10", "a", sym 7 — index keys
first in ascending numeric (not lexicographic, not insertion) order. -/
theorem eventNames_grouped_witness :
    ((eventNamesOp numKeySt).Nodup ∧
    List.Perm (eventNamesOp numKeySt) (numKeySt.eventsObj.map Prod.fst) ∧
    List.Perm ((eventNamesOp numKeySt).filter isIdxKey)
      ((numKeySt.eventsObj.map Prod.fst).filter isIdxKey) ∧
    List.Pairwise (fun a b => idxVal a ≤ idxVal b)
      ((eventNamesOp numKeySt).filter isIdxKey) ∧
    (eventNamesOp numKeySt).filter isPlainStrKey =
      (numKeySt.eventsObj.map Prod.fst).filter isPlainStrKey ∧
    (eventNamesOp numKeySt).filter isSymKey =
      (numKeySt.eventsObj.map Prod.fst).filter isSymKey ∧
    eventNamesOp numKeySt = (eventNamesOp numKeySt).filter isIdxKey ++
      (eventNamesOp numKeySt).filter isPlainStrKey ++
      (eventNamesOp numKeySt).filter isSymKey) ∧
    eventNamesOp numKeySt =
      [JSKey.str "2", JSKey.str "10", JSKey.str "a", JSKey.sym 7] :=
  ⟨eventNames_grouped numKeySt
    (onOp_wf _ _ _ (onOp_wf _ _ _ (onOp_wf _ _ _ (onOp_wf _ _ _
      (initSt_wf _ _ (by decide)))))),
   by decide⟩

/-- C7: `off` removes ALL entries identity-equal to the listener (the
sequence becomes exactly the filter of the old one, so the relative order
of the remaining entries is unchanged), `listenerCount` excludes them
afterwards, the listener is absent, every other event's sequence is
untouched, and removing from an event with no sequence is a no-op that
returns the registry unchanged (and never throws — the operation is
total). -/
theorem off_removes_all (st : St) (k : JSKey) (f : Nat) (hwf : WfSt st) :
    listsOf (offOp st k f) k = (listsOf st k).filter (fun g => g ≠ f) ∧
    listenerCountOp (offOp st k f) k =
      ((listsOf st k).filter (fun g => g ≠ f)).length ∧
    f ∉ listsOf (offOp st k f) k ∧
    (∀ k2, k2 ≠ k → listsOf (offOp st k f) k2 = listsOf st k2) ∧
    (assocFind st.eventsObj k = none → offOp st k f = st) := by
  refine ⟨listsOf_offOp_self st k f, ?_, ?_, ?_, offOp_absent st k f⟩
  · rw [listenerCount_eq, listsOf_offOp_self]
  · rw [listsOf_offOp_self]
    simp
  · intro k2 hk2
    exact listsOf_offOp_other st hwf k k2 f hk2

/-- C7 witness: removing listener 0, registered twice among three
entries, on a concrete registry. -/
theorem off_removes_all_witness :
    listsOf (offOp dupListenerSt (JSKey.sym 0) 0) (JSKey.sym 0) =
      (listsOf dupListenerSt (JSKey.sym 0)).filter (fun g => g ≠ 0) ∧
    listenerCountOp (offOp dupListenerSt (JSKey.sym 0) 0) (JSKey.sym 0) =
      ((listsOf dupListenerSt (JSKey.sym 0)).filter (fun g => g ≠ 0)).length ∧
    0 ∉ listsOf (offOp dupListenerSt (JSKey.sym 0) 0) (JSKey.sym 0) ∧
    (∀ k2, k2 ≠ JSKey.sym 0 →
      listsOf (offOp dupListenerSt (JSKey.sym 0) 0) k2 = listsOf dupListenerSt k2) ∧
    (assocFind dupListenerSt.eventsObj (JSKey.sym 0) = none →
      offOp dupListenerSt (JSKey.sym 0) 0 = dupListenerSt) :=
  off_removes_all dupListenerSt (JSKey.sym 0) 0
    (onOp_wf _ _ _ (onOp_wf _ _ _ (onOp_wf _ _ _ (initSt_wf _ _ (by decide)))))

/-- C8: counterexample.  `listeners(event)` returns the live internal
array, not an independent copy: `listeners` returns the array at
reference 0 holding `[0]`, and a subsequent `on(event, 1)` mutates that
same array to `[0, 1]`, changing the sequence previously returned. -/
theorem listeners_copy_cex :
    (listenersOp oneListenerSt (JSKey.sym 3)).1 = 0 ∧
    heapGet oneListenerSt 0 = [0] ∧
    heapGet (onOp oneListenerSt (JSKey.sym 3) 1) 0 = [0, 1] := by
  decide

/-- C8 (amended): when the event has a sequence, `listeners(event)`
returns the live backing array itself (same reference, registry state
untouched), and a subsequent `add(event, g)` pushes onto that very array,
so the previously returned sequence observes the mutation; when the event
has no sequence, `listeners` returns a fresh empty array that is not
stored in the registry, and a subsequent `add` does not affect it. -/
theorem listeners_live (st : St) (k : JSKey) (g : Nat) :
    (∀ r, assocFind st.eventsObj k = some r →
      listenersOp st k = (r, st) ∧
      heapGet (onOp st k g) r = heapGet st r ++ [g]) ∧
    (assocFind st.eventsObj k = none →
      heapGet (listenersOp st k).2 (listenersOp st k).1 = [] ∧
      heapGet (onOp (listenersOp st k).2 k g) (listenersOp st k).1 = []) := by
  constructor
  · intro r hr
    constructor
    · simp [listenersOp, hr]
    · simp [onOp, listenersOp, hr, heapSet, heapGet, assocFind]
  · intro hk
    constructor
    · simp [listenersOp, hk, allocArr, heapGet, assocFind]
    · have hk2 : assocFind (allocArr st).2.eventsObj k = none := hk
      simp only [listenersOp, hk, hk2]
      have hne : (allocArr st).2.nextRef ≠ (allocArr st).1 := by
        simp [allocArr]
      simp [onOp, listenersOp, hk, hk2, allocArr, heapSet, heapGet, assocFind]

/-- C8 witness: the live-array behaviour on a present key (sym 3) and the
fresh-array behaviour on an absent key (sym 99). -/
theorem listeners_live_witness :
    (listenersOp oneListenerSt (JSKey.sym 3) = (0, oneListenerSt) ∧
      heapGet (onOp oneListenerSt (JSKey.sym 3) 1) 0 =
        heapGet oneListenerSt 0 ++ [1]) ∧
    (heapGet (listenersOp oneListenerSt (JSKey.sym 99)).2
        (listenersOp oneListenerSt (JSKey.sym 99)).1 = [] ∧
      heapGet (onOp (listenersOp oneListenerSt (JSKey.sym 99)).2 (JSKey.sym 99) 1)
        (listenersOp oneListenerSt (JSKey.sym 99)).1 = []) :=
  ⟨(listeners_live oneListenerSt (JSKey.sym 3) 1).1 0 (by decide),
    (listeners_live oneListenerSt (JSKey.sym 99) 1).2 (by decide)⟩

/-- C9: a listener exception propagates synchronously and unmodified out
of `emit` and aborts the remaining listener invocations of that call:
with the listeners before the thrower passive, `emit` yields exactly the
exception the listener raised, the invocation log gains exactly the
earlier listeners and the thrower (each with the given arguments, in
order) and nothing else — the listeners after the thrower are not
invoked — and the state reached by the already-made invocations is kept. -/
theorem emit_exception_fail_fast (st : St) (k : JSKey) (args : List Nat)
    (fuel : Nat) (pre post : List Nat) (tf n : Nat) (cs : List Cmd)
    (harr : listsOf st k = pre ++ tf :: post)
    (hp : ∀ f ∈ pre, assocFind st.fns f = some (FnDef.plain []))
    (htf : assocFind st.fns tf = some (FnDef.plain (Cmd.throwC n :: cs)))
    (hfuel : pre.length + 3 ≤ fuel) :
    errOf (emitOp fuel st k args) = some (JSErr.thrown n) ∧
    (emitOp fuel st k args).2.trace =
      st.trace ++ (pre ++ [tf]).map (fun f => (f, args)) := by
  rw [emit_throw st k args fuel pre post tf n cs harr hp htf hfuel]
  exact ⟨rfl, rfl⟩

/-- C9 witness: listener 1 throws 42 between two passive listeners; the
exception comes out of `emit` and listener 2 is not invoked. -/
theorem emit_exception_fail_fast_witness :
    errOf (emitOp 8 throwMidSt (JSKey.sym 0) [3]) = some (JSErr.thrown 42) ∧
    (emitOp 8 throwMidSt (JSKey.sym 0) [3]).2.trace =
      throwMidSt.trace ++ ([0] ++ [1]).map (fun f => (f, [3])) :=
  emit_exception_fail_fast throwMidSt (JSKey.sym 0) [3] 8 [0] [2] 1 42 []
    (by decide) (by decide) (by decide) (by decide)

/-- C10: removing the last listener with `off` keeps the event key in the
registry: the key still appears in `eventNames()`, `listenerCount` is 0
and `emit` returns `false`; `removeAllListeners(event)` (for a truthy
key) instead deletes the key, which then no longer appears in
`eventNames()`. -/
theorem off_keeps_key_removeAll_deletes (st : St) (k : JSKey) (f r : Nat)
    (fuel : Nat) (args : List Nat)
    (hr : assocFind st.eventsObj k = some r) (hone : heapGet st r = [f])
    (ht : k.truthy = true) (hfuel : 3 ≤ fuel) :
    k ∈ eventNamesOp (offOp st k f) ∧
    listenerCountOp (offOp st k f) k = 0 ∧
    resOf (emitOp fuel (offOp st k f) k args) = some false ∧
    k ∉ eventNamesOp (removeAllOp st (some k)) := by
  have hempty : listsOf (offOp st k f) k = [] := by
    rw [listsOf_offOp_self]
    simp [listsOf, hr, hone]
  have hcount : listenerCountOp (offOp st k f) k = 0 := by
    rw [listenerCount_eq, hempty]
    rfl
  refine ⟨?_, hcount, ?_, ?_⟩
  · rw [mem_eventNames, eventsKeys_offOp]
    exact key_mem_of_assocFind hr
  · rw [emit_passive (offOp st k f) k args fuel (by rw [hempty]; intro f2 hf2; cases hf2)
      (by rw [hempty]; simpa using hfuel)]
    simp [resOf, hcount]
  · rw [mem_eventNames]
    simp only [removeAllOp, ht, if_true]
    intro hmem
    exact (mem_map_fst_deleteKey.mp hmem).2 rfl

/-- C10 witness: the contrast applied to a single-listener registry on
key sym 3. -/
theorem off_keeps_key_removeAll_deletes_witness :
    JSKey.sym 3 ∈ eventNamesOp (offOp oneListenerSt (JSKey.sym 3) 0) ∧
    listenerCountOp (offOp oneListenerSt (JSKey.sym 3) 0) (JSKey.sym 3) = 0 ∧
    resOf (emitOp 5 (offOp oneListenerSt (JSKey.sym 3) 0) (JSKey.sym 3) [2]) =
      some false ∧
    JSKey.sym 3 ∉ eventNamesOp (removeAllOp oneListenerSt (some (JSKey.sym 3))) :=
  off_keeps_key_removeAll_deletes oneListenerSt (JSKey.sym 3) 0 0 5 [2]
    (by decide) (by decide) (by decide) (by decide)

end EmitterModel
